import Mathlib

/-!
# Verification of the Intelligence Brief Synthesis Pipeline

A shallow embedding of the brief-synthesis core of the `feeder` repository
(`src/analyzer.ts`: `extractJSON`, `IntelligenceAnalyzer.createBrief`,
`IntelligenceAnalyzer.parseAIResponse`), together with the data model from
`src/types.ts`, and proofs of the testable properties stated in the
specification.

The repository snapshot carries several historical variants of the analyzer.
The variant present in `src/analyzer.ts` provides the response extractor, the
evidence reconciler, the fallback brief, the empty-input brief and the prompt
body verbatim; those are embedded here directly from that source.  The final
analyzer variant — the one called by `src/index.ts` with three arguments
(`createBrief(todayArticles, today, historicalBriefs)`) and whose result
carries an `is_fallback` flag read at `index.ts` ("Skipping Slack (fallback
brief due to AI error)") — is not part of the snapshot; the pieces that exist
only in that missing variant (the `is_fallback` flag, the historical-context
builder, the per-article content budget, and the JSON-shape validation) are
modelled from the specification and are marked `Modelled from the spec:` in
their doc comments.

JavaScript string semantics (`toLowerCase`, `includes`, `startsWith`,
`slice`, `replace` with a string pattern, `trim`, `indexOf`/`lastIndexOf`
with `substring`) are modelled on `List Char`, ASCII-faithful, following the
JS definitions.  JSON numbers are modelled as integers: no field of the
brief schema is numeric, so fractional numbers never arise in the verified
statements.
-/

/-! ## JavaScript string primitives, modelled on `List Char` -/

/-- ASCII lower-casing of one character, as JS `toLowerCase` acts on ASCII. -/
def lowerChar (c : Char) : Char :=
  if 'A' ≤ c ∧ c ≤ 'Z' then Char.ofNat (c.toNat + 32) else c

/-- JS `String.prototype.toLowerCase` (ASCII fragment). -/
def lowerStr (s : String) : String := String.mk (s.data.map lowerChar)

/-- JS `String.prototype.startsWith`. -/
def strStartsWith (s pat : String) : Bool := pat.data.isPrefixOf s.data

/-- Contiguous-infix test on char lists (JS `includes` on the underlying text). -/
def hasInfix (pat : List Char) : List Char → Bool
  | [] => pat.isEmpty
  | c :: rest => pat.isPrefixOf (c :: rest) || hasInfix pat rest

/-- JS `String.prototype.includes`. -/
def strContains (s pat : String) : Bool := hasInfix pat.data s.data

/-- JS `String.prototype.slice(0, n)` (and `substring(0, n)`): first `n` characters. -/
def takeStr (n : Nat) (s : String) : String := String.mk (s.data.take n)

/-- JS `String.prototype.replace` with a *string* pattern: replaces only the
first occurrence of `pat` by `rep` (here always used with `rep` empty). -/
def replaceFirstChars (pat rep : List Char) : List Char → List Char
  | [] => []
  | c :: rest =>
    if pat.isPrefixOf (c :: rest) then rep ++ (c :: rest).drop pat.length
    else c :: replaceFirstChars pat rep rest

/-- JS `String.prototype.replace(pat, rep)` with a string pattern. -/
def replaceFirst (s pat rep : String) : String :=
  String.mk (replaceFirstChars pat.data rep.data s.data)

/-- The whitespace characters JS `trim` removes (common ASCII fragment). -/
def isJsWs (c : Char) : Bool := c = ' ' || c = '\n' || c = '\t' || c = '\r'

/-- JS `String.prototype.trim` on char lists. -/
def trimChars (l : List Char) : List Char :=
  ((l.dropWhile isJsWs).reverse.dropWhile isJsWs).reverse

/-! ## Data model (`src/types.ts` and §3 of the spec) -/

/-- An input article (`Article` in `src/types.ts`); the `id` and date fields
play no role in the synthesis pipeline and are omitted. -/
structure Article where
  url : String
  title : String
  source : String
  topic : String
  content : String
deriving Repr, DecidableEq

/-- A model-claimed source citation (`sources` entries of a development in the
analyzer's JSON schema).  A missing JSON field is modelled as the empty
string, matching JS truthiness at every use site in the analyzer. -/
structure SourceRef where
  title : String
  url : String
  source : String
deriving Repr, DecidableEq

/-- One key development of a brief (`key_developments` entries).  The final
variant's optional `key_takeaways` field is carried as a list, empty when the
model supplied none. -/
structure Development where
  development : String
  key_takeaways : List String := []
  sources : List SourceRef := []
deriving Repr, DecidableEq

/-- The synthesized daily brief (`IntelligenceBrief`).  `is_fallback` is the
final variant's flag, modelled from the spec (§4.6) and from its reader in
`src/index.ts`; the variant in `src/analyzer.ts` predates the flag. -/
structure Brief where
  date : String
  executive_summary : String
  key_developments : List Development
  sentiment_summary : String
  trends : String
  what_to_watch : String
  article_count : Nat
  is_fallback : Bool
  raw_ai_response : Option String := none
deriving Repr, DecidableEq

/-- A previously produced brief; per §3 its attributes are those of `Brief`. -/
abbrev HistoricalBrief := Brief

/-- Failures of the model backend (§7 taxonomy, Provider Invoker side). -/
inductive ProviderError where
  | transport
  | auth
  | emptyResponse
deriving Repr, DecidableEq

/-- Pipeline-internal failures (§7 taxonomy). -/
inductive PipelineError where
  | parseError
  | shapeError
deriving Repr, DecidableEq

/-! ## Evidence reconciliation (`parseAIResponse`, `src/analyzer.ts` lines 201–239) -/

/-- One step of the evidence reconciler: repair a single source reference
against the article set.  Direct embedding of the `dev.sources.map` body in
`parseAIResponse`: accept `http(s)://` URLs as-is, else try exact
case-insensitive title match, else substring title match, else (when the
reference carries a URL fragment) strip the first `www.` and match against
article URL or source domain; on success copy the article's URL (and its
source domain if the reference had none); otherwise leave the reference
unchanged. -/
def reconcileSource (articles : List Article) (ref : SourceRef) : SourceRef :=
  let hasValidUrl := strStartsWith ref.url "http://" || strStartsWith ref.url "https://"
  if hasValidUrl then ref
  else
    let byTitle : Option Article :=
      (articles.find? fun a => lowerStr a.title = lowerStr ref.title).orElse fun _ =>
        articles.find? fun a =>
          strContains (lowerStr a.title) (lowerStr ref.title) ||
          strContains (lowerStr ref.title) (lowerStr a.title)
    let matching : Option Article :=
      match byTitle with
      | some a => some a
      | none =>
        if ref.url ≠ "" then
          let domain := replaceFirst ref.url "www." ""
          articles.find? fun a => strContains a.url domain || strContains a.source domain
        else none
    match matching with
    | some a =>
      { ref with
        url := a.url
        source := if ref.source = "" then a.source else ref.source }
    | none => ref

/-- The evidence reconciler over a parsed response's developments
(`parsed.key_developments.map` in `parseAIResponse`). -/
def reconcileDevs (articles : List Article) (devs : List Development) : List Development :=
  devs.map fun d => { d with sources := d.sources.map (reconcileSource articles) }

/-! ## Response extraction (`extractJSON`, `src/analyzer.ts` lines 57–71) -/

/-- Pass 1 of `extractJSON`'s fence stripping: the global regex replace
`/\x60\x60\x60json\n?/g` by the empty string — at each position, greedily
remove the fence-with-`json` marker together with one following newline when
present. -/
def stripJsonFence : List Char → List Char
  | '`' :: '`' :: '`' :: 'j' :: 's' :: 'o' :: 'n' :: '\n' :: rest => stripJsonFence rest
  | '`' :: '`' :: '`' :: 'j' :: 's' :: 'o' :: 'n' :: rest => stripJsonFence rest
  | c :: rest => c :: stripJsonFence rest
  | [] => []

/-- Pass 2 of `extractJSON`'s fence stripping: the global regex replace of a
bare triple-backtick fence, with one following newline when present. -/
def stripFence : List Char → List Char
  | '`' :: '`' :: '`' :: '\n' :: rest => stripFence rest
  | '`' :: '`' :: '`' :: rest => stripFence rest
  | c :: rest => c :: stripFence rest
  | [] => []

/-- Index of the first occurrence of `c`, JS `indexOf` (as `Option` instead
of `-1`). -/
def firstIdx (c : Char) (l : List Char) : Option Nat :=
  if c ∈ l then some (l.findIdx (· = c)) else none

/-- Index of the last occurrence of `c`, JS `lastIndexOf`. -/
def lastIdx (c : Char) (l : List Char) : Option Nat :=
  match firstIdx c l.reverse with
  | some i => some (l.length - 1 - i)
  | none => none

/-- JS `substring(start, stop)`: clamps and *swaps* its arguments when
`start > stop`. -/
def jsSubstring (l : List Char) (start stop : Nat) : List Char :=
  ((l.take (max start stop)).drop (min start stop))

/-- The cleaned text of `extractJSON`: trimmed, with fenced-code delimiters
stripped. -/
def cleanedChars (text : List Char) : List Char :=
  stripFence (stripJsonFence (trimChars text))

/-- `extractJSON` (`src/analyzer.ts` lines 57–71) on char lists: trim, strip
fenced-code delimiters, then take the substring from the first `{` to the
last `}` inclusive; if either brace is absent return the cleaned text. -/
def extractJSONChars (text : List Char) : List Char :=
  match firstIdx '{' (cleanedChars text), lastIdx '}' (cleanedChars text) with
  | some s, some e => jsSubstring (cleanedChars text) s (e + 1)
  | _, _ => cleanedChars text

/-- `extractJSON` on strings. -/
def extractJSON (text : String) : String := String.mk (extractJSONChars text.data)

/-! ## A model of `JSON.stringify` / `JSON.parse`

The analyzer hands the extracted substring to `JSON.parse`.  The value space
is modelled as a mutual inductive family (values / array elements / object
members) so that structural induction is available; numbers are integers (see
the header note). -/

mutual
/-- A JSON value. -/
inductive Json where
  | null : Json
  | jbool : Bool → Json
  | jnum : Int → Json
  | jstr : String → Json
  | jarr : JsonList → Json
  | jobj : JsonObj → Json
deriving Repr, DecidableEq

/-- The elements of a JSON array. -/
inductive JsonList where
  | nil : JsonList
  | cons : Json → JsonList → JsonList
deriving Repr, DecidableEq

/-- The members of a JSON object, in textual order. -/
inductive JsonObj where
  | nil : JsonObj
  | cons : String → Json → JsonObj → JsonObj
deriving Repr, DecidableEq
end

/-- The decimal digit characters, as a table so that every fact about one of
them is decidable by cases on `m < 10`. -/
def digitChar (m : Nat) : Char :=
  match m with
  | 0 => '0' | 1 => '1' | 2 => '2' | 3 => '3' | 4 => '4'
  | 5 => '5' | 6 => '6' | 7 => '7' | 8 => '8' | _ => '9'

/-- Decimal digits of `n`, most significant first; the first argument is
fuel, sufficient whenever `n < fuel`. -/
def natDigitsAux : Nat → Nat → List Char
  | 0, _ => []
  | fuel + 1, n =>
    if n < 10 then [digitChar n]
    else natDigitsAux fuel (n / 10) ++ [digitChar (n % 10)]

/-- Decimal digits of `n`, most significant first. -/
def natDigits (n : Nat) : List Char := natDigitsAux (n + 1) n

/-- Serialization of an integer, as `JSON.stringify` renders it. -/
def serInt (i : Int) : List Char :=
  if i < 0 then '-' :: natDigits (-i).toNat else natDigits i.toNat

/-- String-body escaping of `JSON.stringify`: backslash, quote and the
common control characters (the `\uXXXX` form for other control characters is
not modelled; no verified statement serializes them). -/
def escChar (c : Char) : List Char :=
  if c = '"' then ['\\', '"']
  else if c = '\\' then ['\\', '\\']
  else if c = '\n' then ['\\', 'n']
  else if c = '\t' then ['\\', 't']
  else if c = '\r' then ['\\', 'r']
  else [c]

/-- Escaped body of a serialized JSON string. -/
def escChars (l : List Char) : List Char := l.flatMap escChar

/-- A serialized JSON string with its quotes. -/
def serStr (s : String) : List Char := '"' :: escChars s.data ++ ['"']

mutual
/-- `JSON.stringify` (canonical form: no inserted whitespace). -/
def serJson : Json → List Char
  | .null => ['n', 'u', 'l', 'l']
  | .jbool true => ['t', 'r', 'u', 'e']
  | .jbool false => ['f', 'a', 'l', 's', 'e']
  | .jnum i => serInt i
  | .jstr s => serStr s
  | .jarr xs => '[' :: serList xs ++ [']']
  | .jobj ms => '{' :: serObj ms ++ ['}']

/-- Comma-separated serialized array elements. -/
def serList : JsonList → List Char
  | .nil => []
  | .cons v .nil => serJson v
  | .cons v tl => serJson v ++ ',' :: serList tl

/-- Comma-separated serialized object members. -/
def serObj : JsonObj → List Char
  | .nil => []
  | .cons k v .nil => serStr k ++ ':' :: serJson v
  | .cons k v tl => serStr k ++ ':' :: serJson v ++ ',' :: serObj tl
end

/-- Whitespace skipping between JSON tokens. -/
def skipWs (l : List Char) : List Char := l.dropWhile isJsWs

/-- Unescaping of one string-body escape character. -/
def unescChar (c : Char) : Char :=
  if c = 'n' then '\n' else if c = 't' then '\t' else if c = 'r' then '\r' else c

/-- Parse the body of a JSON string after its opening quote; `acc` holds the
characters read so far, reversed. -/
def parseStringBody : List Char → List Char → Option (String × List Char)
  | [], _ => none
  | c :: rest, acc =>
    if c = '"' then some (String.mk acc.reverse, rest)
    else if c = '\\' then
      match rest with
      | [] => none
      | e :: rest2 => parseStringBody rest2 (unescChar e :: acc)
    else parseStringBody rest (c :: acc)

/-- Is `c` a decimal digit character. -/
def isDigitChar (c : Char) : Bool := '0' ≤ c && c ≤ '9'

/-- Numeric value of one digit character. -/
def digitVal (c : Char) : Nat := c.toNat - 48

/-- Greedily read decimal digits (the span step of JSON number parsing). -/
def readDigits : List Char → (List Char × List Char)
  | [] => ([], [])
  | c :: rest =>
    if isDigitChar c then
      let (ds, r) := readDigits rest
      (c :: ds, r)
    else ([], c :: rest)

/-- Value of a digit string, most significant first. -/
def digitsToNat (ds : List Char) : Nat := ds.foldl (fun acc c => acc * 10 + digitVal c) 0

/-- Parse an unsigned JSON number (one or more digits). -/
def parseNat (l : List Char) : Option (Nat × List Char) :=
  match readDigits l with
  | ([], _) => none
  | (ds, rest) => some (digitsToNat ds, rest)

mutual
/-- Fuelled model of `JSON.parse` for a single value; fuel bounds the nesting
of arrays and objects and exceeds it whenever fuel exceeds the text length. -/
def parseVal : Nat → List Char → Option (Json × List Char)
  | 0, _ => none
  | fuel + 1, l =>
    match skipWs l with
    | 'n' :: 'u' :: 'l' :: 'l' :: rest => some (.null, rest)
    | 't' :: 'r' :: 'u' :: 'e' :: rest => some (.jbool true, rest)
    | 'f' :: 'a' :: 'l' :: 's' :: 'e' :: rest => some (.jbool false, rest)
    | '"' :: rest =>
      match parseStringBody rest [] with
      | some (s, rest2) => some (.jstr s, rest2)
      | none => none
    | '-' :: rest =>
      match parseNat rest with
      | some (n, rest2) => some (.jnum (-(n : Int)), rest2)
      | none => none
    | '[' :: rest =>
      match skipWs rest with
      | ']' :: rest2 => some (.jarr .nil, rest2)
      | rest2 =>
        match parseElems fuel rest2 with
        | some (xs, rest3) => some (.jarr xs, rest3)
        | none => none
    | '{' :: rest =>
      match skipWs rest with
      | '}' :: rest2 => some (.jobj .nil, rest2)
      | rest2 =>
        match parseMembers fuel rest2 with
        | some (ms, rest3) => some (.jobj ms, rest3)
        | none => none
    | c :: rest =>
      if isDigitChar c then
        match parseNat (c :: rest) with
        | some (n, rest2) => some (.jnum (n : Int), rest2)
        | none => none
      else none
    | [] => none

/-- Parse one or more comma-separated array elements up to the closing `]`. -/
def parseElems : Nat → List Char → Option (JsonList × List Char)
  | 0, _ => none
  | fuel + 1, l =>
    match parseVal fuel l with
    | none => none
    | some (v, rest) =>
      match skipWs rest with
      | ',' :: rest2 =>
        match parseElems fuel rest2 with
        | some (xs, rest3) => some (.cons v xs, rest3)
        | none => none
      | ']' :: rest2 => some (.cons v .nil, rest2)
      | _ => none

/-- Parse one or more comma-separated object members up to the closing `}`. -/
def parseMembers : Nat → List Char → Option (JsonObj × List Char)
  | 0, _ => none
  | fuel + 1, l =>
    match skipWs l with
    | '"' :: rest =>
      match parseStringBody rest [] with
      | none => none
      | some (k, rest2) =>
        match skipWs rest2 with
        | ':' :: rest3 =>
          match parseVal fuel rest3 with
          | none => none
          | some (v, rest4) =>
            match skipWs rest4 with
            | ',' :: rest5 =>
              match parseMembers fuel rest5 with
              | some (ms, rest6) => some (.cons k v ms, rest6)
              | none => none
            | '}' :: rest5 => some (.cons k v .nil, rest5)
            | _ => none
        | _ => none
    | _ => none
end

/-- `JSON.parse`: parse one value and require only whitespace to remain. -/
def jsonParse (s : String) : Option Json :=
  match parseVal (s.data.length + 1) s.data with
  | some (v, rest) => if skipWs rest = [] then some v else none
  | none => none

/-! ## From parsed JSON to a brief body -/

/-- The body of a parsed response: the `Omit<IntelligenceBrief, 'date' |
'article_count' | 'raw_ai_response'>` that `parseAIResponse` returns. -/
structure BriefBody where
  executive_summary : String
  key_developments : List Development
  sentiment_summary : String
  trends : String
  what_to_watch : String
deriving Repr, DecidableEq

/-- Property access on a parsed JSON object: as in a JS object built by
`JSON.parse`, a repeated member name takes the last occurrence. -/
def objLookup : JsonObj → String → Option Json
  | .nil, _ => none
  | .cons k' v tl, k =>
    match objLookup tl k with
    | some r => some r
    | none => if k' = k then some v else none

/-- Property access on any JSON value; non-objects have no properties. -/
def jlookup (j : Json) (k : String) : Option Json :=
  match j with
  | .jobj ms => objLookup ms k
  | _ => none

/-- Coerce a JSON value to a string field. -/
def asStr : Json → Option String
  | .jstr s => some s
  | _ => none

/-- The elements of a JSON array, as a `List`. -/
def jsonListToList : JsonList → List Json
  | .nil => []
  | .cons v tl => v :: jsonListToList tl

/-- Coerce a JSON value to an array of elements. -/
def asArr : Json → Option (List Json)
  | .jarr xs => some (jsonListToList xs)
  | _ => none

/-- Read one claimed source reference from its JSON object; a missing or
non-string field reads as the empty string (JS property access yielding
`undefined`, which every use site treats by truthiness). -/
def toSourceRef (j : Json) : SourceRef :=
  { title := ((jlookup j "title").bind asStr).getD ""
    url := ((jlookup j "url").bind asStr).getD ""
    source := ((jlookup j "source").bind asStr).getD "" }

/-- Read one development from its JSON object, leniently: absent takeaways
and absent sources read as empty lists (`dev.sources` is mapped only when
present in the analyzer). -/
def toDevelopment (j : Json) : Development :=
  { development := ((jlookup j "development").bind asStr).getD ""
    key_takeaways := (((jlookup j "key_takeaways").bind asArr).getD []).filterMap asStr
    sources := (((jlookup j "sources").bind asArr).getD []).map toSourceRef }

/-- Modelled from the spec: the JSON-shape validation of the final analyzer
variant (§4.6, §7 `ShapeError`), absent from the `src/analyzer.ts` variant.
The parsed value must be an object carrying the five top-level fields of the
schema of §4.2, with `key_developments` an array and the rest strings. -/
def toBriefBody (j : Json) : Option BriefBody :=
  match j with
  | .jobj ms =>
    match objLookup ms "executive_summary", objLookup ms "key_developments",
          objLookup ms "sentiment_summary", objLookup ms "trends",
          objLookup ms "what_to_watch" with
    | some es, some kd, some ss, some tr, some ww =>
      match asStr es, asArr kd, asStr ss, asStr tr, asStr ww with
      | some es', some kds, some ss', some tr', some ww' =>
        some { executive_summary := es'
               key_developments := kds.map toDevelopment
               sentiment_summary := ss'
               trends := tr'
               what_to_watch := ww' }
      | _, _, _, _, _ => none
    | _, _, _, _, _ => none
  | _ => none

/-- `IntelligenceAnalyzer.parseAIResponse` (`src/analyzer.ts` lines 195–241)
as routed by the final variant: extract, parse, validate the shape
(spec-modelled, see `toBriefBody`), then reconcile every source reference of
every development against the article set; a parse failure signals
`ParseError` and a shape failure `ShapeError`, both recovered by the caller's
fallback (§4.6), never by partial recovery inside this function. -/
def parseAIResponse (raw : String) (articles : List Article) :
    Except PipelineError BriefBody :=
  match jsonParse (extractJSON raw) with
  | none => .error .parseError
  | some j =>
    match toBriefBody j with
    | none => .error .shapeError
    | some body =>
      .ok { body with key_developments := reconcileDevs articles body.key_developments }

/-! ## Brief construction (`createBrief`, `src/analyzer.ts` lines 85–169) -/

/-- The dedicated empty-input brief (`src/analyzer.ts` lines 86–96): zero
developments, zero article count, canned texts; produced before any model
call and not flagged as a fallback. -/
def emptyBrief (date : String) : Brief :=
  { date := date
    executive_summary := "No new articles found today."
    key_developments := []
    sentiment_summary := "Neutral"
    trends := "No significant trends detected."
    what_to_watch := "Monitor for new developments."
    article_count := 0
    is_fallback := false }

/-- The Fallback Synthesizer (`src/analyzer.ts` lines 156–167): templated
executive summary naming the article count and domain, the first five input
articles each becoming one development whose single source reference copies
that article's title, URL and source verbatim, fixed neutral sentiment, and
templated trend and watch statements.  The `is_fallback` flag is modelled
from the spec (§4.6) and from its reader in `src/index.ts`. -/
def fallbackBrief (domain : String) (articles : List Article) (date : String) : Brief :=
  { date := date
    executive_summary :=
      "Analyzed " ++ toString articles.length ++ " articles on " ++ domain ++
        " today. See individual articles for details."
    key_developments := (articles.take 5).map fun a =>
      { development := a.title
        sources := [{ title := a.title, url := a.url, source := a.source }] }
    sentiment_summary := "Neutral - Unable to perform detailed analysis"
    trends := "Multiple articles discussing " ++ domain ++ " across various sectors."
    what_to_watch := "Monitor for emerging patterns in " ++ domain ++ "."
    article_count := articles.length
    is_fallback := true }

/-- `IntelligenceAnalyzer.createBrief`: the whole pipeline run, parameterized
by the provider invocation's outcome (`aiResult` stands for the awaited
`callAI(prompt)`, the one external interaction).  Empty input short-circuits
to the dedicated empty brief with no model call; a provider error or any
parse/shape failure yields the fallback brief; a valid parsed body is wrapped
with the date, article count and raw response.  The `hist` argument is the
final variant's historical-briefs parameter, consumed by the prompt composer
(`buildHistoricalContext`, below) and so affecting only the prompt sent to
the provider, not the shape of the result. -/
def createBrief (domain : String) (articles : List Article) (date : String)
    (hist : List HistoricalBrief) (aiResult : Except ProviderError String) : Brief :=
  if articles.isEmpty then emptyBrief date
  else
    match aiResult with
    | .error _ => fallbackBrief domain articles date
    | .ok raw =>
      match parseAIResponse raw articles with
      | .error _ => fallbackBrief domain articles date
      | .ok body =>
        { date := date
          executive_summary := body.executive_summary
          key_developments := body.key_developments
          sentiment_summary := body.sentiment_summary
          trends := body.trends
          what_to_watch := body.what_to_watch
          article_count := articles.length
          is_fallback := false
          raw_ai_response := some raw }

/-! ## Prompt composition and historical context -/

/-- Modelled from the spec: the per-article content budget of the final
variant's prompt composer (§4.2): `min(1500, floor(8000 / article_count))`
characters.  (The `src/analyzer.ts` variant predates the budget and uses a
constant 500.) -/
def perArticleBudget (n : Nat) : Nat := min 1500 (8000 / n)

/-- One article's rendering in the prompt (`src/analyzer.ts` line 101), with
the content truncated to the given budget. -/
def articleSummary (budget : Nat) (idx : Nat) (a : Article) : String :=
  "[" ++ toString (idx + 1) ++ "] " ++ a.title ++
  "\nURL: " ++ a.url ++
  "\nSource: " ++ a.source ++
  "\nTopic: " ++ a.topic ++
  "\nContent preview: " ++ takeStr budget a.content ++ "...\n"

/-- Join with a separator (JS `Array.prototype.join`). -/
def joinSep (sep : String) : List String → String
  | [] => ""
  | [s] => s
  | s :: rest => s ++ sep ++ joinSep sep rest

/-- The article block of the prompt (`articles.map(...).join('\n')`). -/
def articleSummaries (budget : Nat) (articles : List Article) : String :=
  joinSep "\n" (articles.enum.map fun p => articleSummary budget p.1 p.2)

/-- The fixed instruction tail of the prompt: a condensed rendering of the
JSON output contract and consolidation directives of `src/analyzer.ts`
lines 109–136, not their verbatim text; every verified statement about the
composer is invariant to the tail's content. -/
def promptTail : String :=
  "\nCreate a JSON response with the fixed schema (executive_summary, " ++
  "key_developments with sources carrying COMPLETE URLs, sentiment_summary, " ++
  "trends, what_to_watch). RESPOND WITH ONLY THE JSON OBJECT."

/-- The prompt composer with an explicit per-article budget: intro naming the
domain, then the historical context block verbatim, then the enumerated
article block, then the instruction tail. -/
def composePromptWith (budget : Nat) (domain : String) (articles : List Article)
    (context : String) : String :=
  "You are an intelligence analyst covering " ++ domain ++
  ". Analyze today's articles and create a daily intelligence brief.\n\n" ++
  context ++
  "Articles (" ++ toString articles.length ++ " total):\n" ++
  articleSummaries budget articles ++ promptTail

/-- Modelled from the spec: the final variant's prompt composer (§4.2),
using the `min(1500, floor(8000 / n))` per-article budget. -/
def composePrompt (domain : String) (articles : List Article) (context : String) : String :=
  composePromptWith (perArticleBudget articles.length) domain articles context

/-- The prompt with no historical-context section at all. -/
def promptNoContext (domain : String) (articles : List Article) : String :=
  composePromptWith (perArticleBudget articles.length) domain articles ""

/-- The section header of the historical-context block. -/
def contextHeader : String := "## Context from recent briefs"

/-- Modelled from the spec: the prior-development lines of the context block
(§4.1): the developments' headlines of the most recent five briefs, capped at
fifteen lines in total. -/
def contextDevLines (briefs : List HistoricalBrief) : List String :=
  ((briefs.take 5).flatMap fun b => b.key_developments.map fun d => d.development).take 15

/-- Modelled from the spec: the Context Builder of the final analyzer variant
(§4.1), absent from `src/analyzer.ts`.  Three independently capped
subsections: prior development headlines (five most recent briefs, at most
fifteen lines), prior watch statements (three briefs), prior sentiment
statements (three briefs, each truncated to 100 characters).  An empty input
produces the empty string, with no section header. -/
def buildHistoricalContext (briefs : List HistoricalBrief) : String :=
  if briefs.isEmpty then ""
  else
    contextHeader ++ "\n" ++
    joinSep "\n" (contextDevLines briefs) ++
    "\nPreviously watching:\n" ++
    joinSep "\n" ((briefs.take 3).map fun b => b.what_to_watch) ++
    "\nRecent sentiment:\n" ++
    joinSep "\n" ((briefs.take 3).map fun b => takeStr 100 b.sentiment_summary) ++
    "\n\n"

/-! ## Helper lemmas -/

/-- A reference whose URL already carries an `http(s)://` scheme is left
untouched by the reconciler (rule 1). -/
theorem reconcileSource_of_valid_url (articles : List Article) (ref : SourceRef)
    (h : (strStartsWith ref.url "http://" || strStartsWith ref.url "https://") = true) :
    reconcileSource articles ref = ref := by
  simp [reconcileSource, h]

/-- Reconciliation never changes the number of developments. -/
theorem reconcileDevs_length (articles : List Article) (devs : List Development) :
    (reconcileDevs articles devs).length = devs.length := by
  simp [reconcileDevs]

/-! ## Claim theorems -/

/-- C5: For every non-empty article sequence of length n, the prompt composer
truncates each article's content in the composed prompt to
`min(1500, floor(8000 / n))` characters; in particular the per-article budget
is 160 characters when n = 50 and 1500 characters when n = 2. -/
theorem C5_prompt_budget :
    (∀ (domain context : String) (articles : List Article),
        composePrompt domain articles context =
          composePromptWith (min 1500 (8000 / articles.length)) domain articles context) ∧
    (∀ (budget idx : Nat) (a : Article),
        articleSummary budget idx a =
          "[" ++ toString (idx + 1) ++ "] " ++ a.title ++ "\nURL: " ++ a.url ++
          "\nSource: " ++ a.source ++ "\nTopic: " ++ a.topic ++
          "\nContent preview: " ++ takeStr budget a.content ++ "...\n") ∧
    perArticleBudget 50 = 160 ∧ perArticleBudget 2 = 1500 :=
  ⟨fun _ _ _ => rfl, fun _ _ _ => rfl, by decide, by decide⟩

/-- C9: For every article sequence (in particular every non-empty one), the
brief-synthesis operation returns exactly one Brief whose `article_count`
equals the length of the input sequence, on the success path, the fallback
path and the empty path alike. -/
theorem C9_article_count (domain date : String) (articles : List Article)
    (hist : List HistoricalBrief) (aiResult : Except ProviderError String) :
    (createBrief domain articles date hist aiResult).article_count = articles.length := by
  unfold createBrief
  cases articles with
  | nil => simp [emptyBrief]
  | cons a tl =>
    simp only [List.isEmpty_cons, Bool.false_eq_true, if_false]
    cases aiResult with
    | error e => simp [fallbackBrief]
    | ok raw =>
      cases h : parseAIResponse raw (a :: tl) with
      | error err => simp [h, fallbackBrief]
      | ok body => simp [h]

/-- C10: For an empty Article sequence, `createBrief` returns the dedicated
empty-case Brief — zero developments, `article_count = 0`, not flagged as a
fallback — and does so without any model call (the result does not depend on
the provider outcome). -/
theorem C10_empty_input (domain date : String) (hist : List HistoricalBrief)
    (r₁ r₂ : Except ProviderError String) :
    createBrief domain [] date hist r₁ = emptyBrief date ∧
    (createBrief domain [] date hist r₁).key_developments = [] ∧
    (createBrief domain [] date hist r₁).article_count = 0 ∧
    (createBrief domain [] date hist r₁).is_fallback = false ∧
    createBrief domain [] date hist r₁ = createBrief domain [] date hist r₂ :=
  ⟨rfl, rfl, rfl, rfl, rfl⟩

/-- C1: If the model invocation raises an error for a non-empty article
sequence, `createBrief` returns a fallback Brief with `is_fallback = true`
containing at most 5 developments, where the i-th development corresponds to
the i-th input article and carries exactly one source reference equal to that
article's (title, URL, source), copied verbatim. -/
theorem C1_provider_error_fallback (domain date : String) (articles : List Article)
    (hist : List HistoricalBrief) (e : ProviderError) (h : articles ≠ []) :
    (createBrief domain articles date hist (.error e)).is_fallback = true ∧
    (createBrief domain articles date hist (.error e)).key_developments.length ≤ 5 ∧
    (createBrief domain articles date hist (.error e)).key_developments =
      (articles.take 5).map fun a =>
        { development := a.title
          key_takeaways := []
          sources := [{ title := a.title, url := a.url, source := a.source }] } := by
  cases articles with
  | nil => exact absurd rfl h
  | cons a tl =>
    unfold createBrief
    simp only [List.isEmpty_cons, Bool.false_eq_true, if_false]
    refine ⟨rfl, ?_, rfl⟩
    simp only [fallbackBrief, List.length_map, List.length_take]
    omega

/-- Witness for C1 at a concrete one-article input and a transport error. -/
theorem C1_witness :
    (([⟨"https://a.com/x", "T1", "a.com", "ai", "body"⟩] : List Article) ≠ []) ∧
    ((createBrief "commerce" [⟨"https://a.com/x", "T1", "a.com", "ai", "body"⟩]
        "2026-10-11" [] (.error .transport)).is_fallback = true ∧
      (createBrief "commerce" [⟨"https://a.com/x", "T1", "a.com", "ai", "body"⟩]
        "2026-10-11" [] (.error .transport)).key_developments.length ≤ 5 ∧
      (createBrief "commerce" [⟨"https://a.com/x", "T1", "a.com", "ai", "body"⟩]
        "2026-10-11" [] (.error .transport)).key_developments =
        (([⟨"https://a.com/x", "T1", "a.com", "ai", "body"⟩] : List Article).take 5).map
          fun a =>
            { development := a.title
              key_takeaways := []
              sources := [{ title := a.title, url := a.url, source := a.source }] }) :=
  ⟨List.cons_ne_nil _ _,
    C1_provider_error_fallback "commerce" "2026-10-11"
      [⟨"https://a.com/x", "T1", "a.com", "ai", "body"⟩] [] .transport
      (List.cons_ne_nil _ _)⟩

/-- C8: On a Development set in which every source reference's URL already
starts with `http://` or `https://`, reconciliation is the identity, so a
second run produces the same output as the first. -/
theorem C8_reconcile_idempotent (articles : List Article) (devs : List Development)
    (h : ∀ d ∈ devs, ∀ s ∈ d.sources,
        (strStartsWith s.url "http://" || strStartsWith s.url "https://") = true) :
    reconcileDevs articles devs = devs ∧
    reconcileDevs articles (reconcileDevs articles devs) = reconcileDevs articles devs := by
  have hid : reconcileDevs articles devs = devs := by
    unfold reconcileDevs
    calc devs.map (fun d => { d with sources := d.sources.map (reconcileSource articles) })
        = devs.map id := by
          apply List.map_congr_left
          intro d hd
          have : d.sources.map (reconcileSource articles) = d.sources := by
            calc d.sources.map (reconcileSource articles) = d.sources.map id := by
                  apply List.map_congr_left
                  intro s hs
                  exact reconcileSource_of_valid_url articles s (h d hd s hs)
              _ = d.sources := List.map_id d.sources
          simp [this]
      _ = devs := List.map_id devs
  exact ⟨hid, by rw [hid]; exact hid⟩

/-- Witness for C8 at concrete fully-resolved developments. -/
theorem C8_witness :
    (∀ d ∈ ([⟨"dev1", [], [⟨"T1", "https://a.com/x", "a.com"⟩]⟩,
             ⟨"dev2", [], [⟨"T2", "http://b.org/y", "b.org"⟩]⟩] : List Development),
      ∀ s ∈ d.sources,
        (strStartsWith s.url "http://" || strStartsWith s.url "https://") = true) ∧
    (reconcileDevs [] ([⟨"dev1", [], [⟨"T1", "https://a.com/x", "a.com"⟩]⟩,
             ⟨"dev2", [], [⟨"T2", "http://b.org/y", "b.org"⟩]⟩] : List Development) =
        ([⟨"dev1", [], [⟨"T1", "https://a.com/x", "a.com"⟩]⟩,
          ⟨"dev2", [], [⟨"T2", "http://b.org/y", "b.org"⟩]⟩] : List Development) ∧
      reconcileDevs [] (reconcileDevs []
          ([⟨"dev1", [], [⟨"T1", "https://a.com/x", "a.com"⟩]⟩,
            ⟨"dev2", [], [⟨"T2", "http://b.org/y", "b.org"⟩]⟩] : List Development)) =
        reconcileDevs [] ([⟨"dev1", [], [⟨"T1", "https://a.com/x", "a.com"⟩]⟩,
            ⟨"dev2", [], [⟨"T2", "http://b.org/y", "b.org"⟩]⟩] : List Development)) :=
  ⟨by decide, C8_reconcile_idempotent _ _ (by decide)⟩

/-- A parsed value missing any of the five required top-level fields fails
the shape validation. -/
theorem toBriefBody_none_of_missing (j : Json)
    (h : jlookup j "executive_summary" = none ∨ jlookup j "key_developments" = none ∨
      jlookup j "sentiment_summary" = none ∨ jlookup j "trends" = none ∨
      jlookup j "what_to_watch" = none) :
    toBriefBody j = none := by
  cases j with
  | jobj ms =>
    simp only [jlookup] at h
    unfold toBriefBody
    cases h1 : objLookup ms "executive_summary" <;>
      cases h2 : objLookup ms "key_developments" <;>
        cases h3 : objLookup ms "sentiment_summary" <;>
          cases h4 : objLookup ms "trends" <;>
            cases h5 : objLookup ms "what_to_watch" <;>
              simp_all
  | null => rfl
  | jbool b => rfl
  | jnum n => rfl
  | jstr s => rfl
  | jarr xs => rfl

/-- C4: For every model response that parses as JSON but is missing any of
the required top-level fields (in particular no `key_developments` or no
`executive_summary`, but also no `sentiment_summary`, `trends` or
`what_to_watch`), the pipeline signals `ShapeError` and routes to the
Fallback Synthesizer rather than surfacing the incomplete parsed object as
the brief's content. -/
theorem C4_shape_error_fallback (domain date raw : String) (articles : List Article)
    (hist : List HistoricalBrief) (j : Json)
    (hne : articles ≠ [])
    (hparse : jsonParse (extractJSON raw) = some j)
    (hmiss : jlookup j "executive_summary" = none ∨ jlookup j "key_developments" = none ∨
      jlookup j "sentiment_summary" = none ∨ jlookup j "trends" = none ∨
      jlookup j "what_to_watch" = none) :
    parseAIResponse raw articles = .error .shapeError ∧
    createBrief domain articles date hist (.ok raw) = fallbackBrief domain articles date := by
  have hbody : toBriefBody j = none := toBriefBody_none_of_missing j hmiss
  have hresp : parseAIResponse raw articles = .error .shapeError := by
    unfold parseAIResponse
    rw [hparse]
    simp only [hbody]
  refine ⟨hresp, ?_⟩
  cases articles with
  | nil => exact absurd rfl hne
  | cons a tl =>
    unfold createBrief
    simp only [List.isEmpty_cons, Bool.false_eq_true, if_false]
    rw [hresp]

/-- Witness for C4 at the concrete model response `"{}"`. -/
theorem C4_witness :
    (([⟨"https://a.com/x", "T1", "a.com", "ai", "body"⟩] : List Article) ≠ []) ∧
    jsonParse (extractJSON "{}") = some (.jobj .nil) ∧
    (jlookup (.jobj .nil) "executive_summary" = none ∨
      jlookup (.jobj .nil) "key_developments" = none ∨
      jlookup (.jobj .nil) "sentiment_summary" = none ∨
      jlookup (.jobj .nil) "trends" = none ∨
      jlookup (.jobj .nil) "what_to_watch" = none) ∧
    (parseAIResponse "{}" [⟨"https://a.com/x", "T1", "a.com", "ai", "body"⟩] =
        .error .shapeError ∧
      createBrief "commerce" [⟨"https://a.com/x", "T1", "a.com", "ai", "body"⟩]
          "2026-10-11" [] (.ok "{}") =
        fallbackBrief "commerce" [⟨"https://a.com/x", "T1", "a.com", "ai", "body"⟩]
          "2026-10-11") :=
  ⟨List.cons_ne_nil _ _, rfl, Or.inl rfl,
    C4_shape_error_fallback "commerce" "2026-10-11" "{}"
      [⟨"https://a.com/x", "T1", "a.com", "ai", "body"⟩] [] (.jobj .nil)
      (List.cons_ne_nil _ _) rfl (Or.inl rfl)⟩

/-! ## The reconciliation policy as worded (refinement for C2) -/

/-- The URL produced by the reconciliation policy exactly as the claim words
it, rules applied in order with first match winning; rule 4 strips a
*leading* `www.` from the partial URL.  Written from the claim's words, to be
compared against `reconcileSource` (which embeds the source). -/
def claimPolicyUrl (articles : List Article) (ref : SourceRef) : String :=
  if strStartsWith ref.url "http://" || strStartsWith ref.url "https://" then ref.url
  else
    match articles.find? fun a => lowerStr a.title = lowerStr ref.title with
    | some a => a.url
    | none =>
      match articles.find? fun a =>
          strContains (lowerStr a.title) (lowerStr ref.title) ||
          strContains (lowerStr ref.title) (lowerStr a.title) with
      | some a => a.url
      | none =>
        if ref.url ≠ "" then
          let fragment :=
            if strStartsWith ref.url "www." then String.mk (ref.url.data.drop 4) else ref.url
          match articles.find? fun a =>
              strContains a.url fragment || strContains a.source fragment with
          | some a => a.url
          | none => ref.url
        else ref.url

/-- The URL produced by the reconciliation policy as amended: identical to
the claim's wording except that rule 4 removes the *first occurrence* of
`www.` anywhere in the partial URL (JS `replace` with a string pattern),
which is what the source does. -/
def specPolicyUrl (articles : List Article) (ref : SourceRef) : String :=
  if strStartsWith ref.url "http://" || strStartsWith ref.url "https://" then ref.url
  else
    match articles.find? fun a => lowerStr a.title = lowerStr ref.title with
    | some a => a.url
    | none =>
      match articles.find? fun a =>
          strContains (lowerStr a.title) (lowerStr ref.title) ||
          strContains (lowerStr ref.title) (lowerStr a.title) with
      | some a => a.url
      | none =>
        if ref.url ≠ "" then
          match articles.find? fun a =>
              strContains a.url (replaceFirst ref.url "www." "") ||
              strContains a.source (replaceFirst ref.url "www." "") with
          | some a => a.url
          | none => ref.url
        else ref.url

/-- C2 counterexample: with the single article
`{title:"T", url:"https://foo.bar/x", source:"foo.bar"}` and the reference
`{title:"zzz", url:"foo.www.bar"}`, the claim's rule 4 (leading-`www.`
strip) leaves the URL unresolved, but the code removes the first `www.`
anywhere, obtains the fragment `foo.bar`, matches the article and resolves
the URL — so the claim's policy disagrees with the code on this input. -/
theorem C2_counterexample :
    claimPolicyUrl [⟨"https://foo.bar/x", "T", "foo.bar", "t", ""⟩]
        ⟨"zzz", "foo.www.bar", ""⟩ = "foo.www.bar" ∧
    (reconcileSource [⟨"https://foo.bar/x", "T", "foo.bar", "t", ""⟩]
        ⟨"zzz", "foo.www.bar", ""⟩).url = "https://foo.bar/x" ∧
    claimPolicyUrl [⟨"https://foo.bar/x", "T", "foo.bar", "t", ""⟩]
        ⟨"zzz", "foo.www.bar", ""⟩ ≠
      (reconcileSource [⟨"https://foo.bar/x", "T", "foo.bar", "t", ""⟩]
        ⟨"zzz", "foo.www.bar", ""⟩).url := by
  refine ⟨rfl, rfl, ?_⟩
  decide

/-- C2 (amended): the reconciler applies the five ordered rules with
first-match-wins semantics, where rule 4 removes the first occurrence of
`www.` (not only a leading one); no URL is fabricated (rule 5 leaves the
reference's URL unchanged), no development is dropped, and the concrete
Visa instance resolves to `https://x.com/a`. -/
theorem C2_reconciliation_policy :
    (∀ (articles : List Article) (ref : SourceRef),
        (reconcileSource articles ref).url = specPolicyUrl articles ref) ∧
    (∀ (articles : List Article) (devs : List Development),
        (reconcileDevs articles devs).length = devs.length) ∧
    (reconcileSource [⟨"https://x.com/a", "Visa Launches Agent Toolkit", "x.com", "ai", ""⟩]
        ⟨"Visa launches agent toolkit", "x.com", ""⟩).url = "https://x.com/a" := by
  refine ⟨?_, fun articles devs => reconcileDevs_length articles devs, by decide⟩
  intro articles ref
  unfold reconcileSource specPolicyUrl
  by_cases hv : (strStartsWith ref.url "http://" || strStartsWith ref.url "https://") = true
  · simp [hv]
  · rw [Bool.not_eq_true] at hv
    simp only [hv, Bool.false_eq_true, if_false]
    cases h1 : articles.find? (fun a => lowerStr a.title = lowerStr ref.title) with
    | some a => simp [Option.orElse, h1]
    | none =>
      cases h2 : articles.find? (fun a =>
          strContains (lowerStr a.title) (lowerStr ref.title) ||
          strContains (lowerStr ref.title) (lowerStr a.title)) with
      | some a => simp [Option.orElse, h1, h2]
      | none =>
        by_cases hu : ref.url ≠ ""
        · simp only [Option.orElse, h1, h2, hu, if_true]
          cases h3 : articles.find? (fun a =>
              strContains a.url (replaceFirst ref.url "www." "") ||
              strContains a.source (replaceFirst ref.url "www." "")) with
          | some a => simp [Option.orElse, h1, h2, hu, h3]
          | none => simp [Option.orElse, h1, h2, hu, h3]
        · simp [Option.orElse, h1, h2, hu]

/-- C6: The Context Builder, given zero historical briefs, produces an empty
context block — so the composed prompt is exactly the prompt with no context
section at all, and no section header of the block appears — and given 10
historical briefs its prior-development subsection contains at most 15
lines. -/
theorem C6_context_builder :
    buildHistoricalContext [] = "" ∧
    (∀ (domain : String) (articles : List Article),
        composePrompt domain articles (buildHistoricalContext []) =
          promptNoContext domain articles) ∧
    (∀ briefs : List HistoricalBrief, briefs.length = 10 →
        (contextDevLines briefs).length ≤ 15) := by
  refine ⟨rfl, fun _ _ => rfl, fun briefs h => ?_⟩
  unfold contextDevLines
  exact List.length_take_le 15 _

/-- Witness for C6 at ten concrete historical briefs. -/
theorem C6_witness :
    (List.replicate 10 (emptyBrief "2026-10-01")).length = 10 ∧
    (contextDevLines (List.replicate 10 (emptyBrief "2026-10-01"))).length ≤ 15 :=
  ⟨rfl, C6_context_builder.2.2 (List.replicate 10 (emptyBrief "2026-10-01")) rfl⟩


/-! ## Remainder and brace lemmas for the parser (towards C3) -/

/-- A suffix observed through an explicit prefix. -/
theorem suffix_of_eq_append {r l : List Char} (t : List Char) (h : l = t ++ r) :
    r <:+ l := ⟨t, h.symm⟩

theorem skipWs_suffix (l : List Char) : skipWs l <:+ l := by
  unfold skipWs
  induction l with
  | nil => simp
  | cons c rest ih =>
    rw [List.dropWhile_cons]
    by_cases h : isJsWs c = true
    · simp only [h, if_true]
      exact ih.trans (List.suffix_cons c rest)
    · simp [h]

theorem parseStringBody_suffix (l acc : List Char) :
    ∀ s r, parseStringBody l acc = some (s, r) → r <:+ l := by
  induction l, acc using parseStringBody.induct with
  | case1 acc =>
    intro s r h
    simp [parseStringBody] at h
  | case2 rest acc =>
    intro s r h
    rw [parseStringBody.eq_def] at h
    simp at h
    exact h.2 ▸ List.suffix_cons _ rest
  | case3 acc h1 =>
    intro s r h
    simp [parseStringBody, h1] at h
  | case4 acc e rest2 h1 ih =>
    intro s r h
    simp only [parseStringBody, if_neg h1, if_pos rfl] at h
    exact (ih s r h).trans ((List.suffix_cons e rest2).trans (List.suffix_cons _ _))
  | case5 c rest acc h1 h2 ih =>
    intro s r h
    rw [parseStringBody.eq_def] at h
    simp only [if_neg h1, if_neg h2] at h
    exact (ih s r h).trans (List.suffix_cons c rest)

theorem readDigits_suffix (l : List Char) : (readDigits l).2 <:+ l := by
  induction l with
  | nil => simp [readDigits]
  | cons c rest ih =>
    rw [readDigits]
    by_cases h : isDigitChar c = true
    · simp only [h, if_true]
      exact ih.trans (List.suffix_cons c rest)
    · simp [h]

theorem parseNat_suffix (l : List Char) (n : Nat) (r : List Char)
    (h : parseNat l = some (n, r)) : r <:+ l := by
  unfold parseNat at h
  cases hrd : readDigits l with
  | mk ds rest =>
    rw [hrd] at h
    cases ds with
    | nil => simp at h
    | cons d ds2 =>
      simp only [Option.some.injEq, Prod.mk.injEq] at h
      have h2 : (readDigits l).2 = rest := by rw [hrd]
      exact h.2 ▸ h2 ▸ readDigits_suffix l

theorem parse_suffix : ∀ fuel : Nat,
    (∀ l v r, parseVal fuel l = some (v, r) → r <:+ l) ∧
    (∀ l xs r, parseElems fuel l = some (xs, r) → r <:+ l) ∧
    (∀ l ms r, parseMembers fuel l = some (ms, r) → r <:+ l) := by
  intro fuel
  induction fuel with
  | zero =>
    refine ⟨?_, ?_, ?_⟩ <;> intro l a r h <;>
      simp [parseVal, parseElems, parseMembers] at h
  | succ n ih =>
    obtain ⟨ihv, ihe, ihm⟩ := ih
    refine ⟨?_, ?_, ?_⟩
    · intro l v r h
      simp only [parseVal] at h
      split at h
      · rename_i x rest heq
        cases h
        exact (suffix_of_eq_append ['n', 'u', 'l', 'l'] heq).trans (skipWs_suffix l)
      · rename_i x rest heq
        cases h
        exact (suffix_of_eq_append ['t', 'r', 'u', 'e'] heq).trans (skipWs_suffix l)
      · rename_i x rest heq
        cases h
        exact (suffix_of_eq_append ['f', 'a', 'l', 's', 'e'] heq).trans (skipWs_suffix l)
      · rename_i x rest heq
        split at h
        · rename_i x2 s rest2 hsb
          cases h
          exact ((parseStringBody_suffix rest [] s r hsb).trans
            (suffix_of_eq_append ['"'] heq)).trans (skipWs_suffix l)
        · exact absurd h (by simp)
      · rename_i x rest heq
        split at h
        · rename_i x2 m rest2 hpn
          cases h
          exact ((parseNat_suffix rest m r hpn).trans
            (suffix_of_eq_append ['-'] heq)).trans (skipWs_suffix l)
        · exact absurd h (by simp)
      · rename_i x rest heq
        split at h
        · rename_i x2 rest2 heq2
          cases h
          exact (((suffix_of_eq_append [']'] (by exact heq2)).trans (skipWs_suffix rest)).trans
            (suffix_of_eq_append ['['] heq)).trans (skipWs_suffix l)
        · split at h
          · rename_i x3 xs rest3 hpe
            cases h
            have h1 : r <:+ skipWs rest := ihe (skipWs rest) xs r hpe
            exact ((h1.trans (skipWs_suffix rest)).trans
              (suffix_of_eq_append ['['] heq)).trans (skipWs_suffix l)
          · exact absurd h (by simp)
      · rename_i x rest heq
        split at h
        · rename_i x2 rest2 heq2
          cases h
          exact (((suffix_of_eq_append ['}'] (by exact heq2)).trans (skipWs_suffix rest)).trans
            (suffix_of_eq_append ['{'] heq)).trans (skipWs_suffix l)
        · split at h
          · rename_i x3 ms rest3 hpm
            cases h
            have h1 : r <:+ skipWs rest := ihm (skipWs rest) ms r hpm
            exact ((h1.trans (skipWs_suffix rest)).trans
              (suffix_of_eq_append ['{'] heq)).trans (skipWs_suffix l)
          · exact absurd h (by simp)
      · rename_i c rest hn1 hn2 hn3 hn4 hn5 hn6 hn7 heq
        split at h
        · split at h
          · rename_i x2 m rest2 hpn
            cases h
            exact (parseNat_suffix _ m r hpn).trans (heq ▸ skipWs_suffix l)
          · exact absurd h (by simp)
        · exact absurd h (by simp)
      · rename_i heq
        exact absurd h (by simp)
    · intro l xs r h
      simp only [parseElems] at h
      split at h
      · exact absurd h (by simp)
      · rename_i v rest hpv
        split at h
        · rename_i x2 rest2 heq2
          split at h
          · rename_i x3 ys rest3 hpe
            cases h
            have h1 : r <:+ rest2 := ihe rest2 ys r hpe
            have h2 : rest2 <:+ rest :=
              (suffix_of_eq_append [','] heq2).trans (skipWs_suffix rest)
            exact (h1.trans h2).trans (ihv l v rest hpv)
          · exact absurd h (by simp)
        · rename_i x3 rest2 heq2
          cases h
          exact ((suffix_of_eq_append [']'] (by exact heq2)).trans (skipWs_suffix rest)).trans
            (ihv l v rest hpv)
        · exact absurd h (by simp)
    · intro l ms r h
      simp only [parseMembers] at h
      split at h
      · rename_i x rest heq
        split at h
        · exact absurd h (by simp)
        · rename_i x2 k rest2 hsb
          split at h
          · rename_i x3 rest3 heq3
            split at h
            · exact absurd h (by simp)
            · rename_i x4 v rest4 hpv
              split at h
              · rename_i x5 rest5 heq5
                split at h
                · rename_i x6 ms2 rest6 hpm
                  cases h
                  have h1 : r <:+ rest5 := ihm rest5 ms2 r hpm
                  have h2 : rest5 <:+ rest4 :=
                    (suffix_of_eq_append [','] heq5).trans (skipWs_suffix rest4)
                  have h3 : rest4 <:+ rest3 := ihv rest3 v rest4 hpv
                  have h4 : rest3 <:+ rest2 :=
                    (suffix_of_eq_append [':'] heq3).trans (skipWs_suffix rest2)
                  have h5 : rest2 <:+ rest := parseStringBody_suffix rest [] k rest2 hsb
                  have h6 : rest <:+ l := (suffix_of_eq_append ['"'] heq).trans (skipWs_suffix l)
                  exact ((((h1.trans h2).trans h3).trans h4).trans h5).trans h6
                · exact absurd h (by simp)
              · rename_i x7 rest5 heq5
                cases h
                have h2 : r <:+ rest4 :=
                  (suffix_of_eq_append ['}'] (by exact heq5)).trans (skipWs_suffix rest4)
                have h3 : rest4 <:+ rest3 := ihv rest3 v rest4 hpv
                have h4 : rest3 <:+ rest2 :=
                  (suffix_of_eq_append [':'] heq3).trans (skipWs_suffix rest2)
                have h5 : rest2 <:+ rest := parseStringBody_suffix rest [] k rest2 hsb
                have h6 : rest <:+ l := (suffix_of_eq_append ['"'] heq).trans (skipWs_suffix l)
                exact (((h2.trans h3).trans h4).trans h5).trans h6
              · exact absurd h (by simp)
          · exact absurd h (by simp)
      · exact absurd h (by simp)

/-- A successful member parse found a closing brace in its input. -/
theorem parseMembers_rbrace : ∀ (fuel : Nat) (l : List Char) (ms : JsonObj) (r : List Char),
    parseMembers fuel l = some (ms, r) → '}' ∈ l := by
  intro fuel
  induction fuel with
  | zero => intro l ms r h; simp [parseMembers] at h
  | succ n ih =>
    intro l ms r h
    simp only [parseMembers] at h
    split at h
    · rename_i x rest heq
      have hsub : rest ⊆ l := by
        intro a ha
        exact (skipWs_suffix l).subset (heq ▸ List.mem_cons_of_mem '"' ha)
      split at h
      · exact absurd h (by simp)
      · rename_i x2 k rest2 hsb
        have hsub2 : rest2 ⊆ rest := (parseStringBody_suffix rest [] k rest2 hsb).subset
        split at h
        · rename_i x3 rest3 heq3
          have hsub3 : rest3 ⊆ rest2 := by
            intro a ha
            exact ((skipWs_suffix rest2).subset (heq3 ▸ List.mem_cons_of_mem ':' ha))
          split at h
          · exact absurd h (by simp)
          · rename_i x4 v rest4 hpv
            have hsub4 : rest4 ⊆ rest3 := ((parse_suffix n).1 rest3 v rest4 hpv).subset
            split at h
            · rename_i x5 rest5 heq5
              split at h
              · rename_i x6 ms2 rest6 hpm
                cases h
                have h5 : '}' ∈ rest5 := ih rest5 ms2 r hpm
                have : '}' ∈ rest4 :=
                  (skipWs_suffix rest4).subset (heq5 ▸ List.mem_cons_of_mem ',' h5)
                exact hsub (hsub2 (hsub3 (hsub4 this)))
              · exact absurd h (by simp)
            · rename_i x7 rest5 heq5
              cases h
              have : '}' ∈ rest4 :=
                (skipWs_suffix rest4).subset (heq5 ▸ List.mem_cons_self '}' r)
              exact hsub (hsub2 (hsub3 (hsub4 this)))
            · exact absurd h (by simp)
        · exact absurd h (by simp)
    · exact absurd h (by simp)

/-- A parsed top-level object implies both braces occur in the input. -/
theorem parseVal_jobj_braces (fuel : Nat) (l : List Char) (ms : JsonObj) (r : List Char)
    (h : parseVal fuel l = some (.jobj ms, r)) : '{' ∈ l ∧ '}' ∈ l := by
  cases fuel with
  | zero => simp [parseVal] at h
  | succ n =>
    simp only [parseVal] at h
    split at h
    · exact absurd h (by simp)
    · exact absurd h (by simp)
    · exact absurd h (by simp)
    · split at h
      · exact absurd h (by simp)
      · exact absurd h (by simp)
    · split at h
      · exact absurd h (by simp)
      · exact absurd h (by simp)
    · split at h
      · exact absurd h (by simp)
      · split at h
        · exact absurd h (by simp)
        · exact absurd h (by simp)
    · rename_i x rest heq
      have hlb : '{' ∈ l := (skipWs_suffix l).subset (heq ▸ List.mem_cons_self '{' rest)
      have hsub : rest ⊆ l := by
        intro a ha
        exact (skipWs_suffix l).subset (heq ▸ List.mem_cons_of_mem '{' ha)
      refine ⟨hlb, ?_⟩
      split at h
      · rename_i x2 rest2 heq2
        exact hsub ((skipWs_suffix rest).subset (heq2 ▸ List.mem_cons_self '}' rest2))
      · split at h
        · rename_i x3 ms2 rest3 hpm
          have : '}' ∈ skipWs rest := parseMembers_rbrace n (skipWs rest) ms2 rest3 hpm
          exact hsub ((skipWs_suffix rest).subset this)
        · exact absurd h (by simp)
    · split at h
      · split at h
        · exact absurd h (by simp)
        · exact absurd h (by simp)
      · exact absurd h (by simp)
    · exact absurd h (by simp)

/-- The condition under which `extractJSON` finds no `{`/`}` pair
(`start == -1 || end == -1` in the source) and returns the cleaned text
unsliced. -/
def noBracePair (raw : String) : Bool :=
  !(decide ('{' ∈ cleanedChars raw.data) && decide ('}' ∈ cleanedChars raw.data))

/-- When no brace pair exists, extraction returns the cleaned text, which is
missing one of the braces. -/
theorem noBracePair_extract (raw : String) (h : noBracePair raw = true) :
    extractJSON raw = String.mk (cleanedChars raw.data) ∧
    ('{' ∉ cleanedChars raw.data ∨ '}' ∉ cleanedChars raw.data) := by
  unfold noBracePair at h
  simp only [Bool.not_eq_true', Bool.and_eq_false_iff, decide_eq_false_iff_not] at h
  refine ⟨?_, h⟩
  unfold extractJSON extractJSONChars firstIdx lastIdx
  rcases h with hm | hm
  · simp [hm]
  · have hm2 : '}' ∉ (cleanedChars raw.data).reverse := by simp [hm]
    unfold firstIdx
    simp only [hm2, if_false]
    split
    · rename_i heq2
      exact absurd heq2 (by simp)
    · rfl

/-- A successful `jsonParse` exhibits a successful `parseVal` run. -/
theorem jsonParse_some_val (s : String) (j : Json) (h : jsonParse s = some j) :
    ∃ r, parseVal (s.data.length + 1) s.data = some (j, r) := by
  unfold jsonParse at h
  split at h
  · rename_i x v rest heq
    split at h
    · cases h; exact ⟨rest, heq⟩
    · exact absurd h (by simp)
  · exact absurd h (by simp)

/-- The shape validation rejects every non-object value. -/
theorem toBriefBody_none_of_not_obj (j : Json) (h : ∀ ms, j ≠ .jobj ms) :
    toBriefBody j = none := by
  cases j with
  | jobj ms => exact absurd rfl (h ms)
  | null => rfl
  | jbool b => rfl
  | jnum n => rfl
  | jstr s => rfl
  | jarr xs => rfl

/-- C3 counterexample: the brace-free response `"true"` satisfies the
claim's hypothesis (after fence stripping no `{`/`}` pair exists), yet the
pipeline signals `ShapeError`, not `ParseError` as the claim states — the
extractor returns the cleaned text unsliced, it parses as the JSON value
`true`, and the shape validation rejects it. -/
theorem C3_counterexample :
    noBracePair "true" = true ∧
    parseAIResponse "true" [⟨"https://a.com/x", "T1", "a.com", "ai", "body"⟩] =
      .error .shapeError ∧
    parseAIResponse "true" [⟨"https://a.com/x", "T1", "a.com", "ai", "body"⟩] ≠
      .error .parseError :=
  ⟨by decide, rfl, fun h => by
    rw [show parseAIResponse "true" [⟨"https://a.com/x", "T1", "a.com", "ai", "body"⟩] =
        Except.error PipelineError.shapeError from rfl] at h
    exact absurd (Except.error.inj h) (by decide)⟩

/-- C3 (amended): For every model response text in which, after fence
stripping, no `{`/`}` pair exists or the extracted substring fails to parse
as JSON, the pipeline signals an error — `ParseError` exactly when the
extracted substring fails to parse, `ShapeError` when a brace-free text
still parses as a non-object JSON value — and the returned Brief is the
Fallback Synthesizer's output; no partially recovered structure built from
the malformed response text is ever surfaced. -/
theorem C3_parse_failure_fallback (domain date raw : String) (articles : List Article)
    (hist : List HistoricalBrief)
    (hne : articles ≠ [])
    (h : noBracePair raw = true ∨ jsonParse (extractJSON raw) = none) :
    (∃ err, parseAIResponse raw articles = .error err) ∧
    (jsonParse (extractJSON raw) = none →
        parseAIResponse raw articles = .error .parseError) ∧
    createBrief domain articles date hist (.ok raw) = fallbackBrief domain articles date := by
  have herr : ∃ err, parseAIResponse raw articles = .error err := by
    cases hj : jsonParse (extractJSON raw) with
    | none => exact ⟨.parseError, by unfold parseAIResponse; rw [hj]⟩
    | some j =>
      rcases h with hb | hnone
      · have hcl := noBracePair_extract raw hb
        have hnotobj : toBriefBody j = none := by
          refine toBriefBody_none_of_not_obj j ?_
          intro ms hjm
          subst hjm
          obtain ⟨r, hpv⟩ := jsonParse_some_val _ _ hj
          have hdata : (extractJSON raw).data = cleanedChars raw.data := by
            rw [hcl.1]
          rw [hdata] at hpv
          have hbr := parseVal_jobj_braces _ _ _ _ hpv
          rcases hcl.2 with hm | hm
          · exact hm hbr.1
          · exact hm hbr.2
        exact ⟨.shapeError, by unfold parseAIResponse; rw [hj]; simp only [hnotobj]⟩
      · rw [hnone] at hj; cases hj
  obtain ⟨err, herr'⟩ := herr
  refine ⟨⟨err, herr'⟩, ?_, ?_⟩
  · intro hnone
    unfold parseAIResponse
    rw [hnone]
  · cases articles with
    | nil => exact absurd rfl hne
    | cons a tl =>
      unfold createBrief
      simp only [List.isEmpty_cons, Bool.false_eq_true, if_false]
      rw [herr']

/-- Witness for C3 at the concrete brace-free model response `"hello"`. -/
theorem C3_witness :
    (([⟨"https://a.com/x", "T1", "a.com", "ai", "body"⟩] : List Article) ≠ []) ∧
    (noBracePair "hello" = true ∨ jsonParse (extractJSON "hello") = none) ∧
    ((∃ err, parseAIResponse "hello" [⟨"https://a.com/x", "T1", "a.com", "ai", "body"⟩] =
        .error err) ∧
      (jsonParse (extractJSON "hello") = none →
        parseAIResponse "hello" [⟨"https://a.com/x", "T1", "a.com", "ai", "body"⟩] =
          .error .parseError) ∧
      createBrief "commerce" [⟨"https://a.com/x", "T1", "a.com", "ai", "body"⟩]
          "2026-10-11" [] (.ok "hello") =
        fallbackBrief "commerce" [⟨"https://a.com/x", "T1", "a.com", "ai", "body"⟩]
          "2026-10-11") :=
  ⟨List.cons_ne_nil _ _, Or.inl (by decide),
    C3_parse_failure_fallback "commerce" "2026-10-11" "hello"
      [⟨"https://a.com/x", "T1", "a.com", "ai", "body"⟩] []
      (List.cons_ne_nil _ _) (Or.inl (by decide))⟩

/-! ## Round-trip of the serializer and the parser (towards C7) -/

mutual
/-- Node count of a JSON value, used as the fuel measure. -/
def jsize : Json → Nat
  | .null => 1
  | .jbool _ => 1
  | .jnum _ => 1
  | .jstr _ => 1
  | .jarr xs => 1 + lsize xs
  | .jobj ms => 1 + osize ms
def lsize : JsonList → Nat
  | .nil => 0
  | .cons v tl => 1 + jsize v + lsize tl
def osize : JsonObj → Nat
  | .nil => 0
  | .cons _ v tl => 1 + jsize v + osize tl
end

def restSafe : List Char → Prop
  | [] => True
  | c :: _ => isDigitChar c = false

theorem digitChar_isDigit (m : Nat) (h : m < 10) : isDigitChar (digitChar m) = true := by
  interval_cases m <;> decide

theorem digitChar_val (m : Nat) (h : m < 10) : digitVal (digitChar m) = m := by
  interval_cases m <;> decide

theorem digitChar_not_ws (m : Nat) (h : m < 10) : isJsWs (digitChar m) = false := by
  interval_cases m <;> decide

theorem natDigitsAux_head (fuel : Nat) :
    ∀ n, n < fuel → ∃ k R, k < 10 ∧ natDigitsAux fuel n = digitChar k :: R := by
  induction fuel with
  | zero => intro n h; omega
  | succ f ih =>
    intro n h
    by_cases h10 : n < 10
    · exact ⟨n, [], h10, by simp [natDigitsAux, h10]⟩
    · have hdiv : n / 10 < f := by
        have h1 : n / 10 < n := Nat.div_lt_self (by omega) (by omega)
        omega
      obtain ⟨k, R, hk, hR⟩ := ih (n / 10) hdiv
      refine ⟨k, R ++ [digitChar (n % 10)], hk, ?_⟩
      rw [natDigitsAux, if_neg h10, hR]
      rfl

theorem natDigitsAux_digits (fuel : Nat) :
    ∀ n, n < fuel → ∀ c ∈ natDigitsAux fuel n, isDigitChar c = true := by
  induction fuel with
  | zero => intro n h; omega
  | succ f ih =>
    intro n h c hc
    by_cases h10 : n < 10
    · rw [natDigitsAux, if_pos h10] at hc
      simp at hc
      exact hc ▸ digitChar_isDigit n h10
    · have hdiv : n / 10 < f := by
        have h1 : n / 10 < n := Nat.div_lt_self (by omega) (by omega)
        omega
      rw [natDigitsAux, if_neg h10] at hc
      rcases List.mem_append.mp hc with hm | hm
      · exact ih (n / 10) hdiv c hm
      · simp at hm
        exact hm ▸ digitChar_isDigit (n % 10) (Nat.mod_lt n (by omega))

theorem digitsToNat_natDigitsAux (fuel : Nat) :
    ∀ n, n < fuel → digitsToNat (natDigitsAux fuel n) = n := by
  induction fuel with
  | zero => intro n h; omega
  | succ f ih =>
    intro n h
    by_cases h10 : n < 10
    · rw [natDigitsAux, if_pos h10]
      simp [digitsToNat, digitChar_val n h10]
    · have hdiv : n / 10 < f := by
        have h1 : n / 10 < n := Nat.div_lt_self (by omega) (by omega)
        omega
      rw [natDigitsAux, if_neg h10]
      have hbase := ih (n / 10) hdiv
      unfold digitsToNat at hbase ⊢
      rw [List.foldl_append, hbase]
      simp only [List.foldl_cons, List.foldl_nil]
      rw [digitChar_val (n % 10) (Nat.mod_lt n (by omega))]
      omega

theorem natDigits_head (n : Nat) :
    ∃ k R, k < 10 ∧ natDigits n = digitChar k :: R :=
  natDigitsAux_head (n + 1) n (by omega)

theorem natDigits_digits (n : Nat) : ∀ c ∈ natDigits n, isDigitChar c = true :=
  natDigitsAux_digits (n + 1) n (by omega)

theorem digitsToNat_natDigits (n : Nat) : digitsToNat (natDigits n) = n :=
  digitsToNat_natDigitsAux (n + 1) n (by omega)

theorem readDigits_exact (ds : List Char) (rest : List Char)
    (hds : ∀ c ∈ ds, isDigitChar c = true) (hrest : restSafe rest) :
    readDigits (ds ++ rest) = (ds, rest) := by
  induction ds with
  | nil =>
    cases rest with
    | nil => rfl
    | cons c r2 =>
      simp only [List.nil_append, readDigits]
      unfold restSafe at hrest
      simp [hrest]
  | cons c ds2 ih =>
    have hc : isDigitChar c = true := hds c (List.mem_cons_self c ds2)
    simp only [List.cons_append, readDigits, hc, if_true]
    simp only [List.append_eq]
    rw [ih fun c2 hc2 => hds c2 (List.mem_cons_of_mem c hc2)]

theorem parseNat_natDigits (n : Nat) (rest : List Char) (hrest : restSafe rest) :
    parseNat (natDigits n ++ rest) = some (n, rest) := by
  unfold parseNat
  rw [readDigits_exact (natDigits n) rest (natDigits_digits n) hrest]
  obtain ⟨k, R, hk, hR⟩ := natDigits_head n
  rw [hR]
  simp only []
  rw [← hR, digitsToNat_natDigits]

theorem psb_quote (R acc : List Char) :
    parseStringBody ('"' :: R) acc = some (String.mk acc.reverse, R) := by
  rw [parseStringBody.eq_def]
  simp

theorem psb_esc (e : Char) (R acc : List Char) :
    parseStringBody ('\\' :: e :: R) acc = parseStringBody R (unescChar e :: acc) := by
  rw [parseStringBody.eq_def]
  simp

theorem psb_other (c : Char) (R acc : List Char) (h1 : c ≠ '"') (h2 : c ≠ '\\') :
    parseStringBody (c :: R) acc = parseStringBody R (c :: acc) := by
  rw [parseStringBody.eq_def]
  simp [h1, h2]

theorem escChar_other (c : Char) (h1 : c ≠ '"') (h2 : c ≠ '\\') (h3 : c ≠ '\n')
    (h4 : c ≠ '\t') (h5 : c ≠ '\r') : escChar c = [c] := by
  unfold escChar
  simp [h1, h2, h3, h4, h5]

theorem parseStringBody_escChars (cs : List Char) (rest : List Char) :
    ∀ acc, parseStringBody (escChars cs ++ '"' :: rest) acc =
      some (String.mk (acc.reverse ++ cs), rest) := by
  induction cs with
  | nil =>
    intro acc
    simp only [escChars, List.flatMap_nil, List.nil_append]
    rw [psb_quote]
    simp
  | cons c cs2 ih =>
    intro acc
    have hesc : escChars (c :: cs2) = escChar c ++ escChars cs2 := by
      simp [escChars]
    rw [hesc]
    by_cases h1 : c = '"'
    · subst h1
      rw [show escChar '"' = ['\\', '"'] from rfl]
      simp only [List.cons_append, List.nil_append, List.append_assoc]
      rw [psb_esc, show unescChar '"' = '"' from rfl, ih]
      simp
    · by_cases h2 : c = '\\'
      · subst h2
        rw [show escChar '\\' = ['\\', '\\'] from rfl]
        simp only [List.cons_append, List.nil_append, List.append_assoc]
        rw [psb_esc, show unescChar '\\' = '\\' from rfl, ih]
        simp
      · by_cases h3 : c = '\n'
        · subst h3
          rw [show escChar '\n' = ['\\', 'n'] from rfl]
          simp only [List.cons_append, List.nil_append, List.append_assoc]
          rw [psb_esc, show unescChar 'n' = '\n' from rfl, ih]
          simp
        · by_cases h4 : c = '\t'
          · subst h4
            rw [show escChar '\t' = ['\\', 't'] from rfl]
            simp only [List.cons_append, List.nil_append, List.append_assoc]
            rw [psb_esc, show unescChar 't' = '\t' from rfl, ih]
            simp
          · by_cases h5 : c = '\r'
            · subst h5
              rw [show escChar '\r' = ['\\', 'r'] from rfl]
              simp only [List.cons_append, List.nil_append, List.append_assoc]
              rw [psb_esc, show unescChar 'r' = '\r' from rfl, ih]
              simp
            · rw [escChar_other c h1 h2 h3 h4 h5]
              simp only [List.cons_append, List.nil_append]
              rw [psb_other c _ acc h1 h2, ih]
              simp

theorem serInt_head (i : Int) :
    ∃ c R, serInt i = c :: R ∧ isJsWs c = false ∧ c ≠ ']' ∧ c ≠ '}' := by
  unfold serInt
  by_cases h : i < 0
  · exact ⟨'-', natDigits (-i).toNat, by simp [h], by decide, by decide, by decide⟩
  · obtain ⟨k, R, hk, hR⟩ := natDigits_head i.toNat
    refine ⟨digitChar k, R, by simp [h, hR], digitChar_not_ws k hk, ?_, ?_⟩
    · intro hc
      have := digitChar_isDigit k hk
      rw [hc] at this
      exact absurd this (by decide)
    · intro hc
      have := digitChar_isDigit k hk
      rw [hc] at this
      exact absurd this (by decide)

theorem serJson_head (v : Json) :
    ∃ c R, serJson v = c :: R ∧ isJsWs c = false ∧ c ≠ ']' ∧ c ≠ '}' := by
  cases v with
  | null => exact ⟨'n', _, rfl, by decide, by decide, by decide⟩
  | jbool b =>
    cases b with
    | true =>
      refine ⟨'t', _, rfl, ?_, ?_, ?_⟩ <;> decide
    | false =>
      refine ⟨'f', _, rfl, ?_, ?_, ?_⟩ <;> decide
  | jnum i => exact serInt_head i
  | jstr s => exact ⟨'"', _, rfl, by decide, by decide, by decide⟩
  | jarr xs => exact ⟨'[', _, rfl, by decide, by decide, by decide⟩
  | jobj ms => exact ⟨'{', _, rfl, by decide, by decide, by decide⟩

theorem skipWs_cons_nonWs (c : Char) (R : List Char) (h : isJsWs c = false) :
    skipWs (c :: R) = c :: R := by
  unfold skipWs
  rw [List.dropWhile_cons, h]
  simp

theorem skipWs_ser (v : Json) (rest : List Char) :
    skipWs (serJson v ++ rest) = serJson v ++ rest := by
  obtain ⟨c, R, hc, hws, h1, h2⟩ := serJson_head v
  rw [hc, List.cons_append, skipWs_cons_nonWs c _ hws]

theorem digit_not_ws (c : Char) (hc : isDigitChar c = true) : isJsWs c = false := by
  unfold isDigitChar at hc
  unfold isJsWs
  simp only [Bool.and_eq_true, decide_eq_true_eq] at hc
  simp only [Bool.or_eq_false_iff, decide_eq_false_iff_not]
  refine ⟨⟨⟨?_, ?_⟩, ?_⟩, ?_⟩ <;> intro h <;> subst h <;> revert hc <;> decide

theorem parseVal_digit_step (f : Nat) (c : Char) (R : List Char)
    (hc : isDigitChar c = true) :
    parseVal (f + 1) (c :: R) =
      (match parseNat (c :: R) with
        | some (n, r2) => some (.jnum (n : Int), r2)
        | none => none) := by
  rw [parseVal.eq_2, skipWs_cons_nonWs c R (digit_not_ws c hc)]
  split
  · rename_i heq
    injection heq with h1 h2
    subst h1
    exact absurd hc (by decide)
  · rename_i heq
    injection heq with h1 h2
    subst h1
    exact absurd hc (by decide)
  · rename_i heq
    injection heq with h1 h2
    subst h1
    exact absurd hc (by decide)
  · rename_i heq
    injection heq with h1 h2
    subst h1
    exact absurd hc (by decide)
  · rename_i heq
    injection heq with h1 h2
    subst h1
    exact absurd hc (by decide)
  · rename_i heq
    injection heq with h1 h2
    subst h1
    exact absurd hc (by decide)
  · rename_i heq
    injection heq with h1 h2
    subst h1
    exact absurd hc (by decide)
  · rename_i heq
    injection heq with h1 h2
    subst h1
    subst h2
    rw [if_pos hc]
  · rename_i heq
    cases heq

theorem parseVal_serInt (f : Nat) (i : Int) (rest : List Char) (hrest : restSafe rest) :
    parseVal (f + 1) (serInt i ++ rest) = some (.jnum i, rest) := by
  by_cases hneg : i < 0
  · rw [show serInt i = '-' :: natDigits (-i).toNat from by simp [serInt, hneg]]
    rw [List.cons_append, parseVal.eq_2]
    rw [skipWs_cons_nonWs _ _ (by decide)]
    simp only []
    rw [parseNat_natDigits _ rest hrest]
    simp only [Option.some.injEq, Prod.mk.injEq]
    refine ⟨?_, trivial⟩
    congr 1
    omega
  · obtain ⟨k, R, hk, hR⟩ := natDigits_head i.toNat
    have hser : serInt i = natDigits i.toNat := by simp [serInt, hneg]
    have hdig : isDigitChar (digitChar k) = true := digitChar_isDigit k hk
    rw [hser, hR, List.cons_append, parseVal_digit_step f _ _ hdig]
    rw [← List.cons_append, ← hR, parseNat_natDigits _ rest hrest]
    simp only [Option.some.injEq, Prod.mk.injEq]
    refine ⟨?_, trivial⟩
    congr 1
    omega

theorem jsize_pos (v : Json) : 1 ≤ jsize v := by
  cases v <;> simp [jsize]

theorem serList_cons_split (v : Json) (tl : JsonList) (X : List Char) :
    ∃ Y, serList (.cons v tl) ++ X = serJson v ++ Y := by
  cases tl with
  | nil => exact ⟨X, by simp [serList]⟩
  | cons w tl2 => exact ⟨',' :: (serList (.cons w tl2) ++ X), by simp [serList]⟩

theorem serObj_cons_split (k : String) (v : Json) (tl : JsonObj) (X : List Char) :
    ∃ Y, serObj (.cons k v tl) ++ X =
      '"' :: (escChars k.data ++ ('"' :: (':' :: (serJson v ++ Y)))) ∧
      ((tl = .nil ∧ Y = X) ∨
        (∃ k2 v2 tl2, tl = .cons k2 v2 tl2 ∧ Y = ',' :: (serObj tl ++ X))) := by
  cases tl with
  | nil =>
    refine ⟨X, ?_, Or.inl ⟨rfl, rfl⟩⟩
    simp [serObj, serStr]
  | cons k2 v2 tl2 =>
    refine ⟨',' :: (serObj (.cons k2 v2 tl2) ++ X), ?_, Or.inr ⟨k2, v2, tl2, rfl, rfl⟩⟩
    simp [serObj, serStr]

theorem parse_ser : ∀ fuel : Nat,
    (∀ v rest, jsize v ≤ fuel → restSafe rest →
        parseVal fuel (serJson v ++ rest) = some (v, rest)) ∧
    (∀ xs rest, xs ≠ .nil → lsize xs ≤ fuel →
        parseElems fuel (serList xs ++ ']' :: rest) = some (xs, rest)) ∧
    (∀ ms rest, ms ≠ .nil → osize ms ≤ fuel →
        parseMembers fuel (serObj ms ++ '}' :: rest) = some (ms, rest)) := by
  intro fuel
  induction fuel with
  | zero =>
    refine ⟨fun v rest hsz _ => absurd hsz (by have := jsize_pos v; omega), ?_, ?_⟩
    · intro xs rest hne hsz
      cases xs with
      | nil => exact absurd rfl hne
      | cons v tl => simp [lsize] at hsz
    · intro ms rest hne hsz
      cases ms with
      | nil => exact absurd rfl hne
      | cons k v tl => simp [osize] at hsz
  | succ f ih =>
    obtain ⟨ihv, ihe, ihm⟩ := ih
    refine ⟨?_, ?_, ?_⟩
    · intro v rest hsz hrest
      cases v with
      | null =>
        rw [show serJson .null ++ rest = 'n' :: 'u' :: 'l' :: 'l' :: rest from rfl]
        rw [parseVal.eq_2, skipWs_cons_nonWs _ _ (by decide)]
        rfl
      | jbool b =>
        cases b with
        | true =>
          rw [show serJson (.jbool true) ++ rest = 't' :: 'r' :: 'u' :: 'e' :: rest from rfl]
          rw [parseVal.eq_2, skipWs_cons_nonWs _ _ (by decide)]
          rfl
        | false =>
          rw [show serJson (.jbool false) ++ rest =
            'f' :: 'a' :: 'l' :: 's' :: 'e' :: rest from rfl]
          rw [parseVal.eq_2, skipWs_cons_nonWs _ _ (by decide)]
          rfl
      | jnum i => exact parseVal_serInt f i rest hrest
      | jstr s =>
        rw [show serJson (.jstr s) ++ rest =
          '"' :: (escChars s.data ++ ('"' :: rest)) from by simp [serJson, serStr]]
        rw [parseVal.eq_2, skipWs_cons_nonWs _ _ (by decide)]
        simp only [parseStringBody_escChars s.data rest []]
        rfl
      | jarr xs =>
        cases xs with
        | nil =>
          rw [show serJson (.jarr .nil) ++ rest = '[' :: ']' :: rest from rfl]
          rw [parseVal.eq_2, skipWs_cons_nonWs _ _ (by decide)]
          simp only []
          rw [skipWs_cons_nonWs _ _ (by decide)]
          rfl
        | cons v tl =>
          obtain ⟨c, R, hc, hws, hne1, hne2⟩ := serJson_head v
          obtain ⟨Y, hY⟩ := serList_cons_split v tl (']' :: rest)
          have hser : serJson (.jarr (.cons v tl)) ++ rest =
              '[' :: (serList (.cons v tl) ++ (']' :: rest)) := by
            simp [serJson]
          rw [hser, parseVal.eq_2, skipWs_cons_nonWs _ _ (by decide)]
          simp only []
          have hsw : skipWs (serList (.cons v tl) ++ (']' :: rest)) =
              serList (.cons v tl) ++ (']' :: rest) := by
            rw [hY]; exact skipWs_ser v Y
          rw [hsw]
          split
          · rename_i rest2 heq
            rw [hY, hc] at heq
            simp only [List.cons_append] at heq
            injection heq with h1 h2
            exact absurd h1 hne1
          · have hsz2 : lsize (JsonList.cons v tl) ≤ f := by
              simp only [jsize] at hsz
              omega
            rw [ihe (.cons v tl) rest (by simp) hsz2]
      | jobj ms =>
        cases ms with
        | nil =>
          rw [show serJson (.jobj .nil) ++ rest = '{' :: '}' :: rest from rfl]
          rw [parseVal.eq_2, skipWs_cons_nonWs _ _ (by decide)]
          simp only []
          rw [skipWs_cons_nonWs _ _ (by decide)]
          rfl
        | cons k v tl =>
          obtain ⟨Y, hY, hcases⟩ := serObj_cons_split k v tl ('}' :: rest)
          have hser : serJson (.jobj (.cons k v tl)) ++ rest =
              '{' :: (serObj (.cons k v tl) ++ ('}' :: rest)) := by
            simp [serJson]
          rw [hser, parseVal.eq_2, skipWs_cons_nonWs _ _ (by decide)]
          simp only []
          have hsw : skipWs (serObj (.cons k v tl) ++ ('}' :: rest)) =
              serObj (.cons k v tl) ++ ('}' :: rest) := by
            rw [hY]; exact skipWs_cons_nonWs _ _ (by decide)
          rw [hsw]
          split
          · rename_i rest2 heq
            rw [hY] at heq
            injection heq with h1 h2
            exact absurd h1 (by decide)
          · have hsz2 : osize (JsonObj.cons k v tl) ≤ f := by
              simp only [jsize] at hsz
              omega
            rw [ihm (.cons k v tl) rest (by simp) hsz2]
    · intro xs rest hne hsz
      cases xs with
      | nil => exact absurd rfl hne
      | cons v tl =>
        rw [parseElems.eq_2]
        cases tl with
        | nil =>
          have h1 : serList (.cons v .nil) ++ (']' :: rest) =
              serJson v ++ (']' :: rest) := by simp [serList]
          have hsz2 : jsize v ≤ f := by simp only [lsize] at hsz; omega
          rw [h1, ihv v (']' :: rest) hsz2 (by show isDigitChar ']' = false; decide)]
          simp only []
          rw [skipWs_cons_nonWs _ _ (by decide)]
          rfl
        | cons w tl2 =>
          have h1 : serList (.cons v (.cons w tl2)) ++ (']' :: rest) =
              serJson v ++ (',' :: (serList (.cons w tl2) ++ (']' :: rest))) := by
            simp [serList]
          have hsz2 : jsize v ≤ f := by simp only [lsize] at hsz; omega
          rw [h1, ihv v _ hsz2 (by show isDigitChar ',' = false; decide)]
          simp only []
          rw [skipWs_cons_nonWs _ _ (by decide)]
          simp only []
          have hsz3 : lsize (JsonList.cons w tl2) ≤ f := by
            simp only [lsize] at hsz ⊢
            omega
          rw [ihe (.cons w tl2) rest (by simp) hsz3]
    · intro ms rest hne hsz
      cases ms with
      | nil => exact absurd rfl hne
      | cons k v tl =>
        rw [parseMembers.eq_2]
        obtain ⟨Y, hY, hcases⟩ := serObj_cons_split k v tl ('}' :: rest)
        rw [hY, skipWs_cons_nonWs _ _ (by decide)]
        simp only []
        rw [parseStringBody_escChars k.data _ []]
        simp only []
        rw [skipWs_cons_nonWs _ _ (by decide)]
        simp only []
        have hrestY : restSafe Y := by
          rcases hcases with ⟨htl, hYX⟩ | ⟨k2, v2, tl2, htl, hYc⟩
          · rw [hYX]; show isDigitChar '}' = false; decide
          · rw [hYc]; show isDigitChar ',' = false; decide
        have hsz2 : jsize v ≤ f := by simp only [osize] at hsz; omega
        rw [ihv v Y hsz2 hrestY]
        simp only []
        rcases hcases with ⟨htl, hYX⟩ | ⟨k2, v2, tl2, htl, hYc⟩
        · subst htl
          rw [hYX, skipWs_cons_nonWs _ _ (by decide)]
          simp
        · subst htl
          rw [hYc, skipWs_cons_nonWs _ _ (by decide)]
          simp only []
          have hsz3 : osize (JsonObj.cons k2 v2 tl2) ≤ f := by
            simp only [osize] at hsz ⊢
            omega
          rw [ihm (.cons k2 v2 tl2) rest (by simp) hsz3]
          rfl

mutual
theorem jsize_le_serLen : ∀ v : Json, jsize v ≤ (serJson v).length
  | .null => by simp [jsize, serJson]
  | .jbool true => by simp [jsize, serJson]
  | .jbool false => by simp [jsize, serJson]
  | .jnum i => by
    have := natDigits_head i.toNat
    obtain ⟨k, R, hk, hR⟩ := this
    unfold jsize serJson serInt
    by_cases h : i < 0
    · simp [h]
    · simp only [h, if_false, hR]
      simp
  | .jstr s => by simp [jsize, serJson, serStr]
  | .jarr xs => by
    have h := lsize_le_serLen xs
    simp only [jsize, serJson, List.length_cons, List.length_append]
    simp only [List.length_cons, List.length_nil]
    omega
  | .jobj ms => by
    have h := osize_le_serLen ms
    simp only [jsize, serJson, List.length_cons, List.length_append]
    simp only [List.length_cons, List.length_nil]
    omega

theorem lsize_le_serLen : ∀ xs : JsonList, lsize xs ≤ (serList xs).length + 1
  | .nil => by simp [lsize]
  | .cons v .nil => by
    have h := jsize_le_serLen v
    simp only [lsize, serList, lsize]
    omega
  | .cons v (.cons w tl) => by
    have h1 := jsize_le_serLen v
    have h2 := lsize_le_serLen (.cons w tl)
    simp only [lsize, serList, List.length_append, List.length_cons] at *
    omega

theorem osize_le_serLen : ∀ ms : JsonObj, osize ms ≤ (serObj ms).length + 1
  | .nil => by simp [osize]
  | .cons k v .nil => by
    have h := jsize_le_serLen v
    simp only [osize, serObj, osize, List.length_append, List.length_cons]
    omega
  | .cons k v (.cons k2 v2 tl) => by
    have h1 := jsize_le_serLen v
    have h2 := osize_le_serLen (.cons k2 v2 tl)
    simp only [osize, serObj, List.length_append, List.length_cons] at *
    omega
end

theorem jsonParse_serJson (v : Json) :
    jsonParse (String.mk (serJson v)) = some v := by
  unfold jsonParse
  have hdata : (String.mk (serJson v)).data = serJson v := rfl
  rw [hdata]
  have hfuel : jsize v ≤ (serJson v).length + 1 := by
    have := jsize_le_serLen v
    omega
  have h := ((parse_ser ((serJson v).length + 1)).1) v [] hfuel trivial
  rw [List.append_nil] at h
  rw [h]
  rfl

/-! ## Extraction lemmas (towards C7) -/

theorem stripJsonFence_append (A R : List Char) (h : '`' ∉ A) :
    stripJsonFence (A ++ R) = A ++ stripJsonFence R := by
  induction A with
  | nil => rfl
  | cons c A2 ih =>
    have hc : c ≠ '`' := fun hh => h (hh ▸ List.mem_cons_self c A2)
    have hA2 : '`' ∉ A2 := fun hh => h (List.mem_cons_of_mem c hh)
    rw [List.cons_append, stripJsonFence.eq_def]
    split
    · rename_i rest heq
      injection heq with h1 h2
      exact absurd h1 hc
    · rename_i rest heq
      injection heq with h1 h2
      exact absurd h1 hc
    · rename_i c2 rest hn1 hn2 heq
      injection heq with h1 h2
      subst h1
      rw [← h2, ih hA2]
      simp
    · rename_i heq
      cases heq

theorem stripFence_append (A R : List Char) (h : '`' ∉ A) :
    stripFence (A ++ R) = A ++ stripFence R := by
  induction A with
  | nil => rfl
  | cons c A2 ih =>
    have hc : c ≠ '`' := fun hh => h (hh ▸ List.mem_cons_self c A2)
    have hA2 : '`' ∉ A2 := fun hh => h (List.mem_cons_of_mem c hh)
    rw [List.cons_append, stripFence.eq_def]
    split
    · rename_i rest heq
      injection heq with h1 h2
      exact absurd h1 hc
    · rename_i rest heq
      injection heq with h1 h2
      exact absurd h1 hc
    · rename_i c2 rest hn1 hn2 heq
      injection heq with h1 h2
      subst h1
      rw [← h2, ih hA2]
      simp
    · rename_i heq
      cases heq

theorem stripJsonFence_sublist (l : List Char) : (stripJsonFence l).Sublist l := by
  suffices H : ∀ (n : Nat) (l : List Char), l.length ≤ n → (stripJsonFence l).Sublist l from
    H l.length l le_rfl
  intro n
  induction n using Nat.strong_induction_on with
  | _ n ih =>
    intro l hl
    rw [stripJsonFence.eq_def]
    split
    · rename_i rest
      simp only [List.length_cons] at hl
      have h1 : (stripJsonFence rest).Sublist rest :=
        ih rest.length (by omega) rest le_rfl
      exact h1.trans (List.sublist_append_right ['`', '`', '`', 'j', 's', 'o', 'n', '\n'] rest)
    · rename_i rest hneg
      simp only [List.length_cons] at hl
      have h1 : (stripJsonFence rest).Sublist rest :=
        ih rest.length (by omega) rest le_rfl
      exact h1.trans (List.sublist_append_right ['`', '`', '`', 'j', 's', 'o', 'n'] rest)
    · rename_i c rest hn1 hn2
      simp only [List.length_cons] at hl
      have h1 : (stripJsonFence rest).Sublist rest :=
        ih rest.length (by omega) rest le_rfl
      exact h1.cons₂ c
    · exact List.Sublist.refl _

theorem stripFence_sublist (l : List Char) : (stripFence l).Sublist l := by
  suffices H : ∀ (n : Nat) (l : List Char), l.length ≤ n → (stripFence l).Sublist l from
    H l.length l le_rfl
  intro n
  induction n using Nat.strong_induction_on with
  | _ n ih =>
    intro l hl
    rw [stripFence.eq_def]
    split
    · rename_i rest
      simp only [List.length_cons] at hl
      have h1 : (stripFence rest).Sublist rest :=
        ih rest.length (by omega) rest le_rfl
      exact h1.trans (List.sublist_append_right ['`', '`', '`', '\n'] rest)
    · rename_i rest hneg
      simp only [List.length_cons] at hl
      have h1 : (stripFence rest).Sublist rest :=
        ih rest.length (by omega) rest le_rfl
      exact h1.trans (List.sublist_append_right ['`', '`', '`'] rest)
    · rename_i c rest hn1 hn2
      simp only [List.length_cons] at hl
      have h1 : (stripFence rest).Sublist rest :=
        ih rest.length (by omega) rest le_rfl
      exact h1.cons₂ c
    · exact List.Sublist.refl _

theorem dropWhile_append_head (p : Char → Bool) (A : List Char) (c : Char) (R : List Char)
    (hc : p c = false) :
    (A ++ c :: R).dropWhile p = A.dropWhile p ++ c :: R := by
  rw [List.dropWhile_append]
  by_cases h : (A.dropWhile p).isEmpty = true
  · simp only [h, if_true]
    rw [List.dropWhile_cons, hc]
    rw [List.isEmpty_iff] at h
    rw [h]
    simp
  · simp [h]

theorem firstIdx_append_notin (c : Char) (X R : List Char) (hX : c ∉ X) :
    firstIdx c (X ++ c :: R) = some X.length := by
  unfold firstIdx
  rw [if_pos (by simp)]
  congr 1
  induction X with
  | nil => simp [List.findIdx_cons]
  | cons a X2 ih =>
    have ha : a ≠ c := fun hh => hX (hh ▸ List.mem_cons_self a X2)
    have hX2 : c ∉ X2 := fun hh => hX (List.mem_cons_of_mem a hh)
    rw [List.cons_append, List.findIdx_cons]
    simp only [ha, decide_eq_true_eq, cond_eq_if, if_neg ha, List.length_cons]
    rw [ih hX2]
    simp

theorem lastIdx_embed (X mid Y : List Char) (hY : '}' ∉ Y) :
    lastIdx '}' (X ++ '{' :: (mid ++ '}' :: Y)) = some (X.length + mid.length + 1) := by
  unfold lastIdx
  have hrev : (X ++ '{' :: (mid ++ '}' :: Y)).reverse =
      Y.reverse ++ '}' :: (mid.reverse ++ '{' :: X.reverse) := by
    simp [List.reverse_append, List.reverse_cons, List.append_assoc]
  rw [hrev, firstIdx_append_notin '}' Y.reverse _ (by simpa using hY)]
  simp only [List.length_append, List.length_cons, List.length_reverse]
  congr 1
  omega

theorem jsSubstring_embed (X mid Y : List Char) :
    jsSubstring (X ++ '{' :: (mid ++ '}' :: Y)) X.length (X.length + mid.length + 2) =
      '{' :: (mid ++ ['}']) := by
  unfold jsSubstring
  rw [Nat.max_eq_right (by omega), Nat.min_eq_left (by omega)]
  have hgroup : X ++ '{' :: (mid ++ '}' :: Y) = (X ++ '{' :: (mid ++ ['}'])) ++ Y := by
    simp
  rw [hgroup]
  rw [List.take_left' (by simp; omega)]
  rw [List.drop_left' rfl]

theorem trimChars_embed (pre mid post : List Char) :
    trimChars (pre ++ '`' :: '`' :: '`' :: 'j' :: 's' :: 'o' :: 'n' :: '\n' ::
        ('{' :: (mid ++ ['}']) ++ '\n' :: '`' :: '`' :: '`' :: post)) =
      pre.dropWhile isJsWs ++ '`' :: '`' :: '`' :: 'j' :: 's' :: 'o' :: 'n' :: '\n' ::
        ('{' :: (mid ++ ['}']) ++ '\n' :: '`' :: '`' :: '`' ::
          ((post.reverse.dropWhile isJsWs).reverse)) := by
  unfold trimChars
  rw [dropWhile_append_head isJsWs pre '`' _ (by decide)]
  have hrev : (pre.dropWhile isJsWs ++ '`' :: '`' :: '`' :: 'j' :: 's' :: 'o' :: 'n' :: '\n' ::
      ('{' :: (mid ++ ['}']) ++ '\n' :: '`' :: '`' :: '`' :: post)).reverse =
      post.reverse ++ '`' :: '`' :: '`' :: '\n' :: '}' :: (mid.reverse ++ '{' :: '\n' ::
        'n' :: 'o' :: 's' :: 'j' :: '`' :: '`' :: '`' :: (pre.dropWhile isJsWs).reverse) := by
    simp [List.reverse_append, List.append_assoc]
  rw [hrev, dropWhile_append_head isJsWs post.reverse '`' _ (by decide)]
  simp [List.reverse_append, List.append_assoc]

theorem cleanedChars_embed (pre mid post : List Char)
    (hpre : '`' ∉ pre) (hmid : '`' ∉ '{' :: (mid ++ ['}'])) (hpost : '`' ∉ post) :
    ∃ X Y : List Char,
      cleanedChars (pre ++ '`' :: '`' :: '`' :: 'j' :: 's' :: 'o' :: 'n' :: '\n' ::
          ('{' :: (mid ++ ['}']) ++ '\n' :: '`' :: '`' :: '`' :: post)) =
        X ++ '{' :: (mid ++ '}' :: Y) ∧
      (∀ a ∈ X, a ∈ pre) ∧ (∀ a ∈ Y, a = '\n' ∨ a = '`' ∨ a ∈ post) := by
  have hpre' : '`' ∉ pre.dropWhile isJsWs :=
    fun hh => hpre ((List.dropWhile_sublist isJsWs).subset hh)
  have hpost' : ∀ a ∈ (post.reverse.dropWhile isJsWs).reverse, a ∈ post := by
    intro a ha
    rw [List.mem_reverse] at ha
    exact List.mem_reverse.mp ((List.dropWhile_sublist isJsWs).subset ha)
  refine ⟨pre.dropWhile isJsWs,
    '\n' :: stripFence (stripJsonFence ('`' :: '`' :: '`' ::
      (post.reverse.dropWhile isJsWs).reverse)), ?_, ?_, ?_⟩
  · unfold cleanedChars
    rw [trimChars_embed]
    rw [stripJsonFence_append _ _ hpre']
    rw [show ∀ R : List Char,
        stripJsonFence ('`' :: '`' :: '`' :: 'j' :: 's' :: 'o' :: 'n' :: '\n' :: R) =
          stripJsonFence R from fun R => rfl]
    rw [show ('{' :: (mid ++ ['}']) ++ '\n' :: '`' :: '`' :: '`' ::
        ((post.reverse.dropWhile isJsWs).reverse)) =
        ('{' :: (mid ++ ['}'])) ++ ('\n' :: ('`' :: '`' :: '`' ::
          (post.reverse.dropWhile isJsWs).reverse)) from by simp]
    rw [stripJsonFence_append _ _ hmid]
    rw [show ∀ R : List Char, stripJsonFence ('\n' :: R) = '\n' :: stripJsonFence R from
      fun R => rfl]
    rw [stripFence_append _ _ hpre']
    rw [stripFence_append _ _ hmid]
    rw [show ∀ R : List Char, stripFence ('\n' :: R) = '\n' :: stripFence R from
      fun R => rfl]
    simp
  · intro a ha
    exact (List.dropWhile_sublist isJsWs).subset ha
  · intro a ha
    rw [List.mem_cons] at ha
    rcases ha with ha | ha
    · exact Or.inl ha
    · have h1 : a ∈ stripJsonFence ('`' :: '`' :: '`' ::
          (post.reverse.dropWhile isJsWs).reverse) :=
        (stripFence_sublist _).subset ha
      have h2 : a ∈ '`' :: '`' :: '`' :: (post.reverse.dropWhile isJsWs).reverse :=
        (stripJsonFence_sublist _).subset h1
      rw [List.mem_cons, List.mem_cons, List.mem_cons] at h2
      rcases h2 with h2 | h2 | h2 | h2
      · exact Or.inr (Or.inl h2)
      · exact Or.inr (Or.inl h2)
      · exact Or.inr (Or.inl h2)
      · exact Or.inr (Or.inr (hpost' a h2))

theorem extractJSON_embed (pre mid post : List Char)
    (hpre1 : '{' ∉ pre) (hpre2 : '`' ∉ pre)
    (hpost1 : '}' ∉ post) (hpost2 : '`' ∉ post)
    (hmid : '`' ∉ '{' :: (mid ++ ['}'])) :
    extractJSONChars (pre ++ '`' :: '`' :: '`' :: 'j' :: 's' :: 'o' :: 'n' :: '\n' ::
        ('{' :: (mid ++ ['}']) ++ '\n' :: '`' :: '`' :: '`' :: post)) =
      '{' :: (mid ++ ['}']) := by
  obtain ⟨X, Y, hcl, hX, hY⟩ := cleanedChars_embed pre mid post hpre2 hmid hpost2
  have hXn : '{' ∉ X := fun hh => hpre1 (hX _ hh)
  have hYn : '}' ∉ Y := by
    intro hh
    rcases hY _ hh with h | h | h
    · exact absurd h (by decide)
    · exact absurd h (by decide)
    · exact hpost1 h
  unfold extractJSONChars
  rw [hcl, firstIdx_append_notin '{' X _ hXn, lastIdx_embed X mid Y hYn]
  simp only []
  rw [show X.length + mid.length + 1 + 1 = X.length + mid.length + 2 from rfl]
  exact jsSubstring_embed X mid Y

/-- C7: For every JSON object serialized and then embedded in fenced markdown
with leading and trailing prose (prose that does not itself contain a stray
opening/closing brace or backtick, and a serialization free of backticks),
applying the extractor to the embedded text yields exactly the serialized
object text, and parsing it returns a value equal to the original object. -/
theorem C7_extractor_roundtrip (ms : JsonObj) (pre post : List Char)
    (hpre1 : '{' ∉ pre) (hpre2 : '`' ∉ pre)
    (hpost1 : '}' ∉ post) (hpost2 : '`' ∉ post)
    (hser : '`' ∉ serJson (.jobj ms)) :
    extractJSON (String.mk (pre ++ '`' :: '`' :: '`' :: 'j' :: 's' :: 'o' :: 'n' :: '\n' ::
        (serJson (.jobj ms) ++ '\n' :: '`' :: '`' :: '`' :: post))) =
      String.mk (serJson (.jobj ms)) ∧
    jsonParse (extractJSON (String.mk
        (pre ++ '`' :: '`' :: '`' :: 'j' :: 's' :: 'o' :: 'n' :: '\n' ::
          (serJson (.jobj ms) ++ '\n' :: '`' :: '`' :: '`' :: post)))) =
      some (.jobj ms) := by
  have hshape : serJson (.jobj ms) = '{' :: (serObj ms ++ ['}']) := rfl
  have hmid : '`' ∉ '{' :: (serObj ms ++ ['}']) := hshape ▸ hser
  have hext : extractJSON (String.mk
      (pre ++ '`' :: '`' :: '`' :: 'j' :: 's' :: 'o' :: 'n' :: '\n' ::
        (serJson (.jobj ms) ++ '\n' :: '`' :: '`' :: '`' :: post))) =
      String.mk (serJson (.jobj ms)) := by
    unfold extractJSON
    rw [show (String.mk (pre ++ '`' :: '`' :: '`' :: 'j' :: 's' :: 'o' :: 'n' :: '\n' ::
        (serJson (.jobj ms) ++ '\n' :: '`' :: '`' :: '`' :: post))).data =
        pre ++ '`' :: '`' :: '`' :: 'j' :: 's' :: 'o' :: 'n' :: '\n' ::
          (serJson (.jobj ms) ++ '\n' :: '`' :: '`' :: '`' :: post) from rfl]
    rw [hshape]
    rw [extractJSON_embed pre (serObj ms) post hpre1 hpre2 hpost1 hpost2 hmid]
  refine ⟨hext, ?_⟩
  rw [hext, jsonParse_serJson (.jobj ms)]

/-- Witness for C7: a one-field brief object embedded in a fenced block
between two prose sentences. -/
theorem C7_witness :
    ('{' ∉ "Sure, here is the brief: ".data) ∧
    ('`' ∉ "Sure, here is the brief: ".data) ∧
    ('}' ∉ " Hope this helps!".data) ∧
    ('`' ∉ " Hope this helps!".data) ∧
    ('`' ∉ serJson (.jobj (.cons "executive_summary" (.jstr "ok") .nil))) ∧
    (extractJSON (String.mk ("Sure, here is the brief: ".data ++
        '`' :: '`' :: '`' :: 'j' :: 's' :: 'o' :: 'n' :: '\n' ::
        (serJson (.jobj (.cons "executive_summary" (.jstr "ok") .nil)) ++
          '\n' :: '`' :: '`' :: '`' :: " Hope this helps!".data))) =
      String.mk (serJson (.jobj (.cons "executive_summary" (.jstr "ok") .nil))) ∧
    jsonParse (extractJSON (String.mk ("Sure, here is the brief: ".data ++
        '`' :: '`' :: '`' :: 'j' :: 's' :: 'o' :: 'n' :: '\n' ::
        (serJson (.jobj (.cons "executive_summary" (.jstr "ok") .nil)) ++
          '\n' :: '`' :: '`' :: '`' :: " Hope this helps!".data)))) =
      some (.jobj (.cons "executive_summary" (.jstr "ok") .nil))) :=
  ⟨by decide, by decide, by decide, by decide, by decide,
    C7_extractor_roundtrip (.cons "executive_summary" (.jstr "ok") .nil)
      "Sure, here is the brief: ".data " Hope this helps!".data
      (by decide) (by decide) (by decide) (by decide) (by decide)⟩
